import Mathlib

/-! # media-receiver: signalling core of `src/main.cpp`

A shallow embedding of the SDP bitrate rewriter (`setMediaBitrate`), the
event-stream verifier (`verify_sse_response`), the stream data callback
(`on_data` of `getRemoteEcho`) and the negotiation routine
(`send_sdp_to_peer`), followed by the properties established about them.
-/

namespace MediaReceiver

/-! ## Strings -/

/-- A `std::string` (or C string), as the sequence of its characters. -/
abbrev Str := List Char

/-- The call `std::getline(ss, buffer)` on a stream whose unread characters are
the argument: `none` when the extraction fails (nothing left to read), otherwise
the extracted line, without its delimiter, and the characters still unread. -/
def getline : Str → Option (Str × Str)
  | [] => none
  | c :: cs =>
    if c = '\n' then some ([], cs)
    else
      match getline cs with
      | none => some ([c], [])
      | some (l, r) => some (c :: l, r)

/-- The loop `while (std::getline(ss, buffer)) lines.push_back(buffer);` of
`setMediaBitrate`: the vector `lines` it builds from the text. -/
def readLines : Str → List Str
  | [] => []
  | c :: cs =>
    if c = '\n' then [] :: readLines cs
    else
      match readLines cs with
      | [] => [[c]]
      | l :: ls => (c :: l) :: ls

/-- The call `v.find(pat)` of `std::string`: the position of the first
occurrence of `pat` in `v`, `none` standing for `npos`. -/
def find : Str → Str → Option Nat
  | [], pat => if pat.isPrefixOf [] then some 0 else none
  | c :: cs, pat =>
    if pat.isPrefixOf (c :: cs) then some 0 else (find cs pat).map (· + 1)

/-- The call `std::to_string(bitrate)` on an `int`. -/
def to_string (bitrate : Int) : Str := (toString bitrate).toList

/-- The predicate of the first `find_if`: `v.find("m=" + media) == 0`. -/
def isMediaLine (media : Str) (v : Str) : Bool :=
  find v (['m', '='] ++ media) == some 0

/-- The predicate of the second `find_if`:
`v.find("i=") != 0 && v.find("c=") != 0`. -/
def notInfoOrConn (v : Str) : Bool :=
  find v ['i', '='] != some 0 && find v ['c', '='] != some 0

/-- The local `b_line` of `setMediaBitrate`: `"b=AS:" + std::to_string(bitrate)`. -/
def b_line (bitrate : Int) : Str := ['b', '=', 'A', 'S', ':'] ++ to_string bitrate

/-- The final loop of `setMediaBitrate`: every non-empty element of `lines` is
appended to `result`, followed by a newline. -/
def joinLines : List Str → Str
  | [] => []
  | v :: vs => if v.isEmpty then joinLines vs else v ++ '\n' :: joinLines vs

/-- The function `setMediaBitrate` of `main.cpp`. Iterators into `lines` are
positions, `lines.end()` being `lines.length`. -/
def setMediaBitrate (sdp media : Str) (bitrate : Int) : Str :=
  let lines := readLines sdp
  let it := lines.findIdx (isMediaLine media)
  if it = lines.length then sdp
  else
    let it := it + 1
    let it := it + (lines.drop it).findIdx notInfoOrConn
    let lines :=
      if it ≠ lines.length ∧ (lines[it]?.any fun v => find v ['b'] == some 0) then
        lines.set it (b_line bitrate)
      else
        lines.insertIdx it (b_line bitrate)
    joinLines lines

/-- The lines that stay behind the `b=AS` line, `rest` being the lines from the
insertion point on: all of them, except that a first line beginning with `b`
is the one overwritten. -/
def keptRest : List Str → List Str
  | [] => []
  | L :: post => if find L ['b'] == some 0 then post else L :: post

/-- The non-empty elements of a vector of lines, in order. -/
def nonEmptyLines (ls : List Str) : List Str := ls.filter fun v => !v.isEmpty

/-- The media section of a vector of lines: the lines after the first line that
starts with `m=<media>`, up to but not including the next line that starts with
`m=`, or to the end. -/
def mediaSection (media : Str) (lines : List Str) : List Str :=
  ((lines.dropWhile fun v => !isMediaLine media v).drop 1).takeWhile
    fun v => !(find v ['m', '='] == some 0)

/-! ## Call state and effects -/

/-- The enumeration `AppState` of `main.cpp`. -/
inductive AppState
  | APP_STATE_UNKNOWN
  | APP_STATE_ERROR
  | PEER_CONNECTING
  | PEER_CONNECTION_ERROR
  | PEER_CONNECTED
  | PEER_CALL_NEGOTIATING
  | PEER_CALL_STARTED
  | PEER_CALL_STOPPING
  | PEER_CALL_STOPPED
  | PEER_CALL_ERROR
  deriving DecidableEq, Repr

/-- The integer value of each enumerator, as the declaration fixes it. -/
def AppState.toInt : AppState → Int
  | APP_STATE_UNKNOWN => 0
  | APP_STATE_ERROR => 1
  | PEER_CONNECTING => 3000
  | PEER_CONNECTION_ERROR => 3001
  | PEER_CONNECTED => 3002
  | PEER_CALL_NEGOTIATING => 4000
  | PEER_CALL_STARTED => 4001
  | PEER_CALL_STOPPING => 4002
  | PEER_CALL_STOPPED => 4003
  | PEER_CALL_ERROR => 4004

/-- The constant `send_offer_url`. -/
def send_offer_url : Str := "https://ntfy.sh/mediaReceiverSendOffer".toList

/-- The constant `get_answer_url`. -/
def get_answer_url : Str := "https://ntfy.sh/mediaReceiverGetAnswer/sse".toList

/-- What the program does to the outside, in the order it happens. -/
inductive Effect
  /-- A message on the error output (`gst_printerr`, `std::cerr`). -/
  | printerr (msg : Str)
  /-- A message on the standard output (`gst_print`). -/
  | print (msg : Str)
  /-- The call `g_main_loop_quit(loop)`. -/
  | loop_quit
  /-- The call `http(HTTP_GET, url, ...)` that opens the event stream. -/
  | http_get (url : Str)
  /-- The call `http(HTTP_POST, url, ...)` whose body is the JSON object with the
  members `type` and `sdp`. -/
  | http_post (url : Str) (type sdp : Str)
  /-- The signal `set-remote-description` emitted on the media engine with an
  answer built from the text `sdp`. -/
  | set_remote_description (sdp : Str)
  /-- A successful `startedPromise.set_value(b)`. -/
  | started_set (b : Bool)
  /-- A successful `responsePromise.set_value(text)`. -/
  | response_set (text : Str)
  deriving DecidableEq

/-- The process-wide variables `app_state` and `loop` (whether it is non-null),
and the effects so far. -/
structure World where
  app_state : AppState
  loop : Bool
  effects : List Effect
  deriving DecidableEq

/-- The function `cleanup_and_quit_loop`. -/
def cleanup_and_quit_loop (msg : Option Str) (state : AppState) (w : World) : World :=
  let w := match msg with
    | some text => { w with effects := w.effects ++ [Effect.printerr text] }
    | none => w
  let w := if state.toInt > 0 then { w with app_state := state } else w
  if w.loop then { w with loop := false, effects := w.effects ++ [Effect.loop_quit] } else w

/-! ## The event stream -/

/-- The call `strncmp(a, b, n)` on two C strings, given without their
terminating zero. -/
def strncmp : Str → Str → Nat → Int
  | _, _, 0 => 0
  | [], [], _ + 1 => 0
  | [], b :: _, _ + 1 => 0 - (b.toNat : Int)
  | a :: _, [], _ + 1 => (a.toNat : Int)
  | a :: as, b :: bs, n + 1 =>
    if a = b then strncmp as bs n else (a.toNat : Int) - (b.toNat : Int)

/-- The macro `EXPECTED_CONTENT_TYPE`. -/
def expected_content_type : Str := "text/event-stream".toList

/-- The function `verify_sse_response`; the argument is the content type that
`curl_easy_getinfo` reports, `none` for a null pointer; the result is `none` for
the return value `0` and the error message otherwise. -/
def verify_sse_response (content_type : Option Str) : Option Str :=
  let content_type := match content_type with
    | some s => s
    | none => []
  if strncmp content_type expected_content_type expected_content_type.length = 0 then none
  else some "Invalid content_type, should be 'text/event-stream'.".toList

/-- The value of a member of a JSON object, as far as the program looks at it:
a string, or anything else. -/
inductive JsonValue
  | string (s : Str)
  | other
  deriving DecidableEq

/-- The root of a parsed JSON document, as far as the program looks at it: an
object with its members, or anything else (`JSON_NODE_HOLDS_OBJECT` fails). -/
inductive JsonNode
  | object (members : List (Str × JsonValue))
  | other
  deriving DecidableEq

/-- The call `json_object_has_member(child, name)`. -/
def json_object_has_member (child : List (Str × JsonValue)) (name : Str) : Bool :=
  (child.lookup name).isSome

/-- The call `json_object_get_string_member(child, name)`; `none` is the null
pointer it returns for a member that is missing or holds no string. -/
def json_object_get_string_member (child : List (Str × JsonValue)) (name : Str) : Option Str :=
  match child.lookup name with
  | some (JsonValue.string s) => some s
  | _ => none

/-- The two library parsers the program calls: `json_parser_load_from_data`
followed by `json_parser_get_root` (`none` when loading fails), and
`gst_sdp_message_parse_buffer` (whether it returns `GST_SDP_OK`). -/
structure Lib where
  json_parser_load_from_data : Str → Option JsonNode
  gst_sdp_message_parse_buffer : Str → Bool

/-- The variables the callbacks of `getRemoteEcho` capture: the value, if any,
given to each promise, and the flag `requestInterrupted`. -/
structure StreamVars where
  startedPromise : Option Bool
  responsePromise : Option Str
  requestInterrupted : Bool
  deriving DecidableEq

/-- How a piece of code ends: normally with a value, by throwing a
`std::exception`, or by bringing the process down (a null pointer given to
`g_str_equal` or `strlen`, a failed assertion, an exception nobody catches). -/
inductive Res (α : Type)
  | ok (a : α)
  | throw
  | crash

/-- The body of the `try` block of `on_data`. A `set_value` on a promise that
already has a value throws `std::future_error`; so does, in `set_value(text)`,
the construction of a `std::string` from a null pointer (`std::logic_error`). -/
def on_data_try (lib : Lib) (chunk : Str) (v : StreamVars) : Res StreamVars :=
  match find chunk "data:".toList with
  | none => Res.ok v
  | some pData =>
    match lib.json_parser_load_from_data (chunk.drop (pData + 5)) with
    | none => Res.ok v
    | some JsonNode.other => Res.ok v
    | some (JsonNode.object child) =>
      if !json_object_has_member child "event".toList then Res.ok v
      else
        match json_object_get_string_member child "event".toList with
        | none => Res.crash
        | some sdptype =>
          if sdptype = "open".toList then
            match v.startedPromise with
            | none => Res.ok { v with startedPromise := some true }
            | some _ => Res.throw
          else if sdptype = "message".toList then
            match json_object_get_string_member child "message".toList with
            | none => Res.throw
            | some text =>
              match v.responsePromise with
              | none => Res.ok { v with responsePromise := some text, requestInterrupted := true }
              | some _ => Res.throw
          else Res.ok v

/-- The callback `on_data` of `getRemoteEcho` on one chunk of the body: `none`
when the process goes down in it, otherwise the variables after the call. An
exception of the `try` block is caught; one thrown by the handler itself
(`set_value(false)` on a promise that has a value) leaves the callback. -/
def on_data (lib : Lib) (chunk : Str) (v : StreamVars) : Option StreamVars :=
  match on_data_try lib chunk v with
  | Res.ok v1 => some v1
  | Res.crash => none
  | Res.throw =>
    match v.startedPromise with
    | none => some { v with startedPromise := some false, requestInterrupted := true }
    | some _ => none

/-- The event a chunk carries: the string member `event` of the JSON object
that follows the first `data:` in it, if there is one. -/
def decodedEvent (lib : Lib) (chunk : Str) : Option Str :=
  match find chunk "data:".toList with
  | none => none
  | some pData =>
    match lib.json_parser_load_from_data (chunk.drop (pData + 5)) with
    | some (JsonNode.object child) => json_object_get_string_member child "event".toList
    | _ => none

/-! ## The negotiation -/

/-- The enumeration `GstWebRTCSDPType`. -/
inductive SdpType
  | OFFER
  | PRANSWER
  | ANSWER
  | ROLLBACK
  deriving DecidableEq

/-- A `GstWebRTCSessionDescription`: its type and the text that
`gst_sdp_message_as_text` gives for its message. -/
structure Desc where
  type : SdpType
  sdp : Str
  deriving DecidableEq

/-- Where the thread that runs `send_sdp_to_peer` stands. -/
inductive MainPc
  /-- About to call `send_sdp_to_peer(desc)`. -/
  | call (desc : Desc)
  /-- Blocked in `startedResult.get()`, with the `type` and `sdp` members of the
  object to send. -/
  | awaitStarted (type sdp : Str)
  /-- Blocked in `responseResult.get()`. -/
  | awaitResponse
  /-- Back from `send_sdp_to_peer`. -/
  | returned
  /-- The process is down. -/
  | aborted
  deriving DecidableEq

/-- Where the detached thread of `getRemoteEcho` stands. -/
inductive StreamPhase
  /-- Not started. -/
  | idle
  /-- In `http(HTTP_GET, ...)`, before the response headers. -/
  | connecting
  /-- In `http(HTTP_GET, ...)`, receiving the body. -/
  | receiving
  /-- The thread is over and its promises are destroyed. -/
  | ended
  deriving DecidableEq

/-- The whole state of one negotiation attempt. -/
structure Sys where
  world : World
  pc : MainPc
  phase : StreamPhase
  vars : StreamVars
  deriving DecidableEq

/-- The start of `send_sdp_to_peer`, up to the first blocking call: the state
guard, the rewriting of the description, and `getRemoteEcho()`, which starts
the thread that calls `http(HTTP_GET, get_answer_url, ...)`. -/
def send_sdp_to_peer_call (desc : Desc) (s : Sys) : Sys :=
  if s.world.app_state.toInt < AppState.PEER_CALL_NEGOTIATING.toInt then
    { s with
      world := cleanup_and_quit_loop (some "Can't send SDP to peer, not in call".toList)
        AppState.APP_STATE_ERROR s.world
      pc := MainPc.returned }
  else
    let correctedText := setMediaBitrate desc.sdp "video".toList 500
    match desc.type with
    | SdpType.OFFER =>
      { s with
        world := { s.world with effects := s.world.effects ++
          [Effect.print ("Sending offer:\n".toList ++ correctedText ++ ['\n']),
           Effect.http_get get_answer_url] }
        pc := MainPc.awaitStarted "offer".toList correctedText
        phase := StreamPhase.connecting
        vars := { startedPromise := none, responsePromise := none, requestInterrupted := false } }
    | SdpType.ANSWER =>
      { s with
        world := { s.world with effects := s.world.effects ++
          [Effect.print ("Sending answer:\n".toList ++ correctedText ++ ['\n']),
           Effect.http_get get_answer_url] }
        pc := MainPc.awaitStarted "answer".toList correctedText
        phase := StreamPhase.connecting
        vars := { startedPromise := none, responsePromise := none, requestInterrupted := false } }
    | _ => { s with pc := MainPc.aborted }

/-- The part of `send_sdp_to_peer` from `startedResult.get()` to the second
blocking call; `started` is what `get()` returns. -/
def send_sdp_to_peer_started (type sdp : Str) (started : Bool) (s : Sys) : Sys :=
  if !started then
    { s with
      world := { s.world with effects := s.world.effects ++
        [Effect.printerr "Failed to SSE connect to the server.\n".toList] }
      pc := MainPc.returned }
  else
    { s with
      world := { s.world with effects := s.world.effects ++
        [Effect.http_post send_offer_url type sdp] }
      pc := MainPc.awaitResponse }

/-- The rest of `send_sdp_to_peer`, from `responseResult.get()` on; `text` is
what `get()` returns. The two `Unknown ... ignoring` messages are given without
their `%s` argument, a buffer already freed. A null pointer given to `strlen`
or `g_str_equal` and a failed `g_assert_cmphex` bring the process down. -/
def send_sdp_to_peer_response (lib : Lib) (text : Str) (s : Sys) : Sys :=
  match lib.json_parser_load_from_data text with
  | none =>
    { s with
      world := { s.world with effects := s.world.effects ++
        [Effect.printerr "Unknown message, ignoring\n".toList] }
      pc := MainPc.returned }
  | some JsonNode.other =>
    { s with
      world := { s.world with effects := s.world.effects ++
        [Effect.printerr "Unknown json message, ignoring\n".toList] }
      pc := MainPc.returned }
  | some (JsonNode.object child) =>
    if !json_object_has_member child "type".toList then
      { s with
        world := cleanup_and_quit_loop (some "ERROR: received SDP without 'type'".toList)
          AppState.PEER_CALL_ERROR s.world
        pc := MainPc.returned }
    else
      match json_object_get_string_member child "sdp".toList with
      | none => { s with pc := MainPc.aborted }
      | some sdp =>
        if !lib.gst_sdp_message_parse_buffer sdp then { s with pc := MainPc.aborted }
        else
          match json_object_get_string_member child "type".toList with
          | none => { s with pc := MainPc.aborted }
          | some sdptype =>
            if sdptype = "answer".toList then
              { s with
                world := { s.world with
                  effects := s.world.effects ++
                    [Effect.print ("Received answer:\n".toList ++ sdp ++ ['\n']),
                     Effect.set_remote_description sdp]
                  app_state := AppState.PEER_CALL_STARTED }
                pc := MainPc.returned }
            else { s with pc := MainPc.returned }

/-- One move of an execution. -/
inductive Move
  /-- The thread of `send_sdp_to_peer` runs up to its next blocking call. -/
  | main
  /-- The transfer has the response headers and calls `on_verify`. -/
  | headers (content_type : Option Str)
  /-- The transfer has a chunk of the body and calls `on_data`. -/
  | data (chunk : Str)
  /-- The transfer is over, `http` returns and the stream thread ends. -/
  | finish
  deriving DecidableEq

/-- The move of the thread of `send_sdp_to_peer`. A `get()` blocks as long as
its promise has no value and is alive, and throws `std::future_error`, which
nothing catches, when the promise was destroyed without one. -/
def stepMain (lib : Lib) (s : Sys) : Sys :=
  match s.pc with
  | MainPc.call desc => send_sdp_to_peer_call desc s
  | MainPc.awaitStarted type sdp =>
    match s.vars.startedPromise with
    | some started => send_sdp_to_peer_started type sdp started s
    | none => if s.phase = StreamPhase.ended then { s with pc := MainPc.aborted } else s
  | MainPc.awaitResponse =>
    match s.vars.responsePromise with
    | some text => send_sdp_to_peer_response lib text s
    | none => if s.phase = StreamPhase.ended then { s with pc := MainPc.aborted } else s
  | MainPc.returned => s
  | MainPc.aborted => s

/-- The effects of a call of `on_data`: the promises it gave a value to. -/
def promiseEffects (before after : StreamVars) : List Effect :=
  (match before.startedPromise, after.startedPromise with
    | none, some b => [Effect.started_set b]
    | _, _ => []) ++
  (match before.responsePromise, after.responsePromise with
    | none, some text => [Effect.response_set text]
    | _, _ => [])

/-- Modelled from the spec: the function `http` of the repository (its source
file is missing), for the request `HTTP_GET` of `getRemoteEcho`. The content
type is verified when the headers are there and before any data callback, and a
failed verification ends the transfer; chunks of the body go to `on_data` only
while the progress callback has not asked to abort (`requestInterrupted` is
unset); when the transfer is over the thread ends. -/
def stepStream (lib : Lib) (m : Move) (s : Sys) : Sys :=
  match m, s.phase with
  | Move.headers content_type, StreamPhase.connecting =>
    match verify_sse_response content_type with
    | none => { s with phase := StreamPhase.receiving }
    | some _ => { s with phase := StreamPhase.ended }
  | Move.data chunk, StreamPhase.receiving =>
    if s.vars.requestInterrupted then s
    else
      match on_data lib chunk s.vars with
      | none => { s with pc := MainPc.aborted, phase := StreamPhase.ended }
      | some vars =>
        { s with
          world := { s.world with effects := s.world.effects ++ promiseEffects s.vars vars }
          vars := vars }
  | Move.finish, StreamPhase.connecting => { s with phase := StreamPhase.ended }
  | Move.finish, StreamPhase.receiving => { s with phase := StreamPhase.ended }
  | _, _ => s

/-- One move; nothing moves once the process is down. -/
def step (lib : Lib) (m : Move) (s : Sys) : Sys :=
  if s.pc = MainPc.aborted then s
  else
    match m with
    | Move.main => stepMain lib s
    | _ => stepStream lib m s

/-- An execution: the moves of a schedule, one after the other. -/
def run (lib : Lib) (schedule : List Move) (s : Sys) : Sys :=
  schedule.foldl (fun s m => step lib m s) s

/-- The state in which `send_sdp_to_peer(desc)` is about to be called. -/
def initial (w : World) (desc : Desc) : Sys :=
  { world := w
    pc := MainPc.call desc
    phase := StreamPhase.idle
    vars := { startedPromise := none, responsePromise := none, requestInterrupted := false } }

/-- Whether an effect is a publish, the `HTTP_POST` of a description. -/
def Effect.isPost : Effect → Bool
  | Effect.http_post _ _ _ => true
  | _ => false

/-- Whether an effect is a network call: the opening of the event stream or a
publish. -/
def Effect.isNetworkCall : Effect → Bool
  | Effect.http_get _ => true
  | Effect.http_post _ _ _ => true
  | _ => false

/-- In a trace, every publish comes after a `started_set true`. -/
def PublishAfterOpen (trace : List Effect) : Prop :=
  ∀ before x after, trace = before ++ x :: after → x.isPost = true →
    Effect.started_set true ∈ before

/-- What holds of every state of an execution of one negotiation attempt that
started with the effects `e0` and has made the moves of `schedule`: the trace
of the attempt has every publish after a `started_set true`; the promise holds
`true` only with that effect in the trace, which in turn needs a chunk given to
`on_data` that carries the event `open`; and a publish in the trace needs the
promise to hold `true`. -/
def AttemptInvariant (lib : Lib) (e0 : List Effect) (schedule : List Move) (s : Sys) : Prop :=
  ∃ trace, s.world.effects = e0 ++ trace ∧ PublishAfterOpen trace ∧
    (s.vars.startedPromise = some true → Effect.started_set true ∈ trace) ∧
    ((∃ x ∈ trace, x.isPost = true) → s.vars.startedPromise = some true) ∧
    (Effect.started_set true ∈ trace →
      ∃ chunk, Move.data chunk ∈ schedule ∧ decodedEvent lib chunk = some "open".toList) ∧
    (∀ d, s.pc = MainPc.call d →
      trace = [] ∧ s.vars.startedPromise = none ∧ s.phase = StreamPhase.idle)

/-- A move that neither publishes nor gives the `started` promise a value. -/
def Quiet (s t : Sys) : Prop :=
  ∃ new, t.world.effects = s.world.effects ++ new ∧
    (∀ x ∈ new, x.isPost = false ∧ x ≠ Effect.started_set true) ∧
    t.vars.startedPromise = s.vars.startedPromise ∧
    (∀ d, t.pc = MainPc.call d → t = s)

/-- A library whose parsers accept nothing, for concrete executions. -/
def noLib : Lib :=
  { json_parser_load_from_data := fun _ => none
    gst_sdp_message_parse_buffer := fun _ => false }

/-- A library whose JSON parser reads every text as an object with the member
`event` set to the string `open`, for concrete executions. -/
def openLib : Lib :=
  { json_parser_load_from_data := fun _ =>
      some (JsonNode.object [("event".toList, JsonValue.string "open".toList)])
    gst_sdp_message_parse_buffer := fun _ => true }

/-- Whether an effect is a promise being given its value. -/
def Effect.isPromiseSet : Effect → Bool
  | Effect.started_set _ => true
  | Effect.response_set _ => true
  | _ => false

/-- A library whose JSON parser knows a few texts, for concrete executions:
`open` is an object with the event `open`; `msg ` followed by a payload is an
object with the event `message` and that payload as its `message`; among the
payloads, `[]` is a document that is no object, `notype` an object with an
`sdp` member only, `answer` and `offer` objects with that `type` and an `sdp`
member; every other text fails to parse. -/
def toyLib : Lib :=
  { json_parser_load_from_data := fun t =>
      if t = "open".toList then
        some (JsonNode.object [("event".toList, JsonValue.string "open".toList)])
      else if "msg ".toList.isPrefixOf t then
        some (JsonNode.object [("event".toList, JsonValue.string "message".toList),
          ("message".toList, JsonValue.string (t.drop 4))])
      else if t = "[]".toList then some JsonNode.other
      else if t = "notype".toList then
        some (JsonNode.object [("sdp".toList, JsonValue.string "v=0\n".toList)])
      else if t = "answer".toList then
        some (JsonNode.object [("type".toList, JsonValue.string "answer".toList),
          ("sdp".toList, JsonValue.string "v=0\n".toList)])
      else if t = "offer".toList then
        some (JsonNode.object [("type".toList, JsonValue.string "offer".toList),
          ("sdp".toList, JsonValue.string "v=0\n".toList)])
      else none
    gst_sdp_message_parse_buffer := fun _ => true }

/-- The state of an attempt made in `PEER_CALL_NEGOTIATING` with the library
`toyLib`, once the stream has delivered `open`, the offer is published and the
stream has delivered a message with the given payload: `send_sdp_to_peer` is
about to come back from `responseResult.get()`. -/
def messageReceived (payload : Str) : Sys :=
  run toyLib
    [Move.main, Move.headers (some "text/event-stream".toList), Move.data "data:open".toList,
      Move.main, Move.data ("data:msg ".toList ++ payload)]
    (initial ⟨AppState.PEER_CALL_NEGOTIATING, true, []⟩ ⟨SdpType.OFFER, "v=0\n".toList⟩)

/-! ## Lemmas on positions in a vector of lines -/

theorem findIdx_at_split {α : Type} (p : α → Bool) (pre : List α) (m : α) (t : List α)
    (hpre : ∀ x ∈ pre, p x = false) (hm : p m = true) :
    (pre ++ m :: t).findIdx p = pre.length := by
  induction pre with
  | nil => simp [List.findIdx_cons, hm]
  | cons a pre ih =>
    have ha : p a = false := hpre a (List.mem_cons_self _ _)
    have ih2 := ih (fun x hx => hpre x (List.mem_cons_of_mem _ hx))
    simp [List.findIdx_cons, ha, ih2]

theorem findIdx_all_false {α : Type} (p : α → Bool) (l : List α)
    (h : ∀ x ∈ l, p x = false) : l.findIdx p = l.length := by
  induction l with
  | nil => rfl
  | cons a l ih =>
    have ha : p a = false := h a (List.mem_cons_self _ _)
    have ih2 := ih (fun x hx => h x (List.mem_cons_of_mem _ hx))
    simp [List.findIdx_cons, ha, ih2]

theorem set_at_split {α : Type} (pre : List α) (x b : α) (t : List α) :
    (pre ++ x :: t).set pre.length b = pre ++ b :: t := by
  induction pre with
  | nil => rfl
  | cons a pre ih => simp [ih]

theorem insertIdx_at_split {α : Type} (pre : List α) (b : α) (t : List α) :
    (pre ++ t).insertIdx pre.length b = pre ++ b :: t := by
  induction pre with
  | nil => simp
  | cons a pre ih => simpa [List.insertIdx_succ_cons] using ih

theorem split_at_first {α : Type} (p : α → Bool) (l : List α) (h : ∃ x ∈ l, p x = true) :
    ∃ pre m t, l = pre ++ m :: t ∧ (∀ x ∈ pre, p x = false) ∧ p m = true := by
  induction l with
  | nil => simp at h
  | cons a l ih =>
    by_cases ha : p a = true
    · exact ⟨[], a, l, rfl, by simp, ha⟩
    · have hl : ∃ x ∈ l, p x = true := by
        obtain ⟨x, hx, hpx⟩ := h
        rcases List.mem_cons.mp hx with rfl | hx
        · exact absurd hpx ha
        · exact ⟨x, hx, hpx⟩
      obtain ⟨pre, m, t, rfl, hpre, hm⟩ := ih hl
      refine ⟨a :: pre, m, t, rfl, ?_, hm⟩
      intro x hx
      rcases List.mem_cons.mp hx with rfl | hx
      · simpa using ha
      · exact hpre x hx

/-- Every list splits into its longest prefix of elements failing `p` and a rest
that is empty or starts with an element satisfying `p`. -/
theorem split_prefix {α : Type} (p : α → Bool) (l : List α) :
    ∃ ics rest, l = ics ++ rest ∧ (∀ x ∈ ics, p x = false) ∧
      (∀ L post, rest = L :: post → p L = true) := by
  induction l with
  | nil => exact ⟨[], [], rfl, by simp, by simp⟩
  | cons a l ih =>
    by_cases ha : p a = true
    · refine ⟨[], a :: l, rfl, by simp, ?_⟩
      intro L post h
      cases h
      exact ha
    · obtain ⟨ics, rest, rfl, hics, hrest⟩ := ih
      refine ⟨a :: ics, rest, rfl, ?_, hrest⟩
      intro x hx
      rcases List.mem_cons.mp hx with rfl | hx
      · simpa using ha
      · exact hics x hx

/-- The vector `lines` of `setMediaBitrate` once the `b=AS` line is in place, for
a vector split at its first media line `m`, the information and connection
lines `ics` that follow it, and the rest. -/
theorem setMediaBitrate_split (sdp media : Str) (n : Int) (pre : List Str) (m : Str)
    (ics rest : List Str)
    (hl : readLines sdp = pre ++ m :: (ics ++ rest))
    (hpre : ∀ x ∈ pre, isMediaLine media x = false) (hm : isMediaLine media m = true)
    (hics : ∀ x ∈ ics, notInfoOrConn x = false)
    (hrest : ∀ L post, rest = L :: post → notInfoOrConn L = true) :
    setMediaBitrate sdp media n
      = joinLines (pre ++ m :: (ics ++ b_line n :: keptRest rest)) := by
  have h1 : (readLines sdp).findIdx (isMediaLine media) = pre.length := by
    rw [hl]; exact findIdx_at_split _ _ _ _ hpre hm
  have h2 : (readLines sdp).length = pre.length + 1 + (ics.length + rest.length) := by
    rw [hl]; simp; omega
  have h3 : (readLines sdp).drop (pre.length + 1) = ics ++ rest := by
    rw [hl]
    have : pre ++ m :: (ics ++ rest) = (pre ++ [m]) ++ (ics ++ rest) := by simp
    rw [this]
    exact List.drop_left' (by simp)
  have h4 : (ics ++ rest).findIdx notInfoOrConn = ics.length := by
    cases rest with
    | nil => simpa using findIdx_all_false _ _ hics
    | cons L post => exact findIdx_at_split _ _ _ _ hics (hrest L post rfl)
  have h5 : readLines sdp = (pre ++ m :: ics) ++ rest := by rw [hl]; simp
  have h6 : (pre ++ m :: ics).length = pre.length + 1 + ics.length := by simp; omega
  unfold setMediaBitrate
  simp only [h1, h3, h4]
  rw [if_neg (by rw [h2]; omega)]
  rw [h5, ← h6]
  cases rest with
  | nil =>
    simp only [List.append_nil]
    rw [if_neg (by simp)]
    rw [List.insertIdx_length_self]
    simp [keptRest]
  | cons L post =>
    have hget : ((pre ++ m :: ics) ++ L :: post)[(pre ++ m :: ics).length]? = some L := by
      rw [List.getElem?_append_right (Nat.le_refl _)]
      simp
    have hne : (pre ++ m :: ics).length ≠ ((pre ++ m :: ics) ++ L :: post).length := by
      simp
    by_cases hb : (find L ['b'] == some 0) = true
    · rw [if_pos ⟨hne, by rw [hget]; simpa using hb⟩]
      rw [set_at_split]
      simp [keptRest, hb]
    · rw [if_neg (by rw [hget]; simpa using hb)]
      rw [insertIdx_at_split]
      simp [keptRest, hb]

/-! ## Lemmas on strings and lines -/

/-- The loop of `readLines` is the iteration of `getline` until it fails. -/
theorem readLines_eq_getline (s : Str) :
    readLines s = match getline s with
      | none => []
      | some (l, r) => l :: readLines r := by
  induction s with
  | nil => rfl
  | cons c cs ih =>
    by_cases hc : c = '\n'
    · simp [readLines, getline, hc]
    · simp only [readLines, getline, hc, if_false]
      rw [ih]
      cases hg : getline cs with
      | none => simp [readLines]
      | some lr => rfl

/-- The test `v.find(pat) == 0` holds exactly when `v` begins with `pat`. -/
theorem find_eq_zero_iff (v pat : Str) : find v pat = some 0 ↔ pat <+: v := by
  cases v with
  | nil => simp [find]
  | cons c cs =>
    simp only [find]
    by_cases h : pat.isPrefixOf (c :: cs) = true
    · simp only [h, if_true, true_iff]
      exact List.isPrefixOf_iff_prefix.mp h
    · simp only [h]
      constructor
      · intro h0
        cases hf : find cs pat with
        | none => simp [hf] at h0
        | some k => simp [hf] at h0
      · intro hp
        exact absurd (List.isPrefixOf_iff_prefix.mpr hp) h

theorem isMediaLine_iff (media v : Str) :
    isMediaLine media v = true ↔ (['m', '='] ++ media) <+: v := by
  simp [isMediaLine, find_eq_zero_iff]

theorem notInfoOrConn_iff (v : Str) :
    notInfoOrConn v = true ↔ ¬ (['i', '='] <+: v) ∧ ¬ (['c', '='] <+: v) := by
  simp [notInfoOrConn, find_eq_zero_iff]

theorem readLines_no_newline (s : Str) : ∀ l ∈ readLines s, '\n' ∉ l := by
  induction s with
  | nil => simp [readLines]
  | cons c cs ih =>
    by_cases hc : c = '\n'
    · intro l hl
      simp only [readLines, hc, if_true] at hl
      rcases List.mem_cons.mp hl with rfl | hl
      · simp
      · exact ih l hl
    · intro l hl
      simp only [readLines, hc, if_false] at hl
      cases hr : readLines cs with
      | nil =>
        rw [hr] at hl
        simp only [List.mem_singleton] at hl
        subst hl
        simpa using fun h => hc h.symm
      | cons l0 ls =>
        rw [hr] at hl ih
        rcases List.mem_cons.mp hl with rfl | hl
        · intro hmem
          rcases List.mem_cons.mp hmem with h | h
          · exact hc h.symm
          · exact ih l0 (List.mem_cons_self _ _) h
        · exact ih l (List.mem_cons_of_mem _ hl)

theorem joinLines_append (a b : List Str) : joinLines (a ++ b) = joinLines a ++ joinLines b := by
  induction a with
  | nil => rfl
  | cons v vs ih =>
    by_cases hv : v.isEmpty = true
    · simp [joinLines, hv, ih]
    · simp [joinLines, hv, ih]

theorem joinLines_nonEmptyLines (ls : List Str) :
    joinLines (nonEmptyLines ls) = joinLines ls := by
  unfold nonEmptyLines
  induction ls with
  | nil => rfl
  | cons v vs ih =>
    by_cases hv : v.isEmpty = true
    · simp [joinLines, hv, ih]
    · simp [joinLines, hv, ih]

/-- Reading a line that has no newline, followed by a newline and more text. -/
theorem readLines_line_append (v : Str) (hv : '\n' ∉ v) (t : Str) :
    readLines (v ++ '\n' :: t) = v :: readLines t := by
  induction v with
  | nil => simp [readLines]
  | cons c cs ih =>
    have hc : c ≠ '\n' := fun h => hv (by simp [h])
    have hcs : '\n' ∉ cs := fun h => hv (List.mem_cons_of_mem _ h)
    simp [readLines, hc, ih hcs]

/-- Splitting the text written by the final loop gives back the non-empty lines. -/
theorem readLines_joinLines (ls : List Str) (h : ∀ l ∈ ls, '\n' ∉ l) :
    readLines (joinLines ls) = nonEmptyLines ls := by
  unfold nonEmptyLines
  induction ls with
  | nil => rfl
  | cons v vs ih =>
    have ih2 := ih (fun l hl => h l (List.mem_cons_of_mem _ hl))
    by_cases hv : v.isEmpty = true
    · simp [joinLines, hv, ih2]
    · simp only [joinLines, hv]
      rw [if_neg (by simp), readLines_line_append v (h v (List.mem_cons_self _ _)), ih2]
      simp [hv]

theorem ite_ne_of {p : Prop} [Decidable p] {x y c : Char} (hx : x ≠ c) (hy : y ≠ c) :
    (if p then x else y) ≠ c := by
  split <;> assumption

theorem digitChar_ne_newline (d : Nat) : Nat.digitChar d ≠ '\n' := by
  unfold Nat.digitChar
  repeat' apply ite_ne_of
  all_goals decide

theorem toDigitsCore_no_newline (fuel : Nat) :
    ∀ (n : Nat) (ds : List Char), '\n' ∉ ds → '\n' ∉ Nat.toDigitsCore 10 fuel n ds := by
  induction fuel with
  | zero => intro n ds h; simpa [Nat.toDigitsCore] using h
  | succ f ih =>
    intro n ds h
    have hd : '\n' ∉ Nat.digitChar (n % 10) :: ds := by
      intro hmem
      rcases List.mem_cons.mp hmem with h1 | h1
      · exact digitChar_ne_newline _ h1.symm
      · exact h h1
    unfold Nat.toDigitsCore
    dsimp only
    split
    · exact hd
    · exact ih _ _ hd

theorem to_string_no_newline (n : Int) : '\n' ∉ to_string n := by
  have hnat : ∀ m : Nat, '\n' ∉ (toString m).toList := by
    intro m
    show '\n' ∉ (Nat.repr m).toList
    unfold Nat.repr Nat.toDigits
    simpa using toDigitsCore_no_newline _ _ [] (by simp)
  unfold to_string
  cases n with
  | ofNat m => exact hnat m
  | negSucc m =>
    show '\n' ∉ ("-" ++ toString (m + 1)).toList
    rw [String.toList, String.data_append]
    intro h
    rcases List.mem_append.mp h with h | h
    · revert h; decide
    · exact hnat _ h

theorem b_line_no_newline (n : Int) : '\n' ∉ b_line n := by
  unfold b_line
  intro h
  rcases List.mem_append.mp h with h | h
  · revert h; decide
  · exact to_string_no_newline n h

theorem b_line_starts_with_b (n : Int) : (find (b_line n) ['b'] == some 0) = true := by
  simp [b_line, find]

theorem b_line_not_empty (n : Int) : (b_line n).isEmpty = false := by
  simp [b_line]

theorem nonEmptyLines_append (a b : List Str) :
    nonEmptyLines (a ++ b) = nonEmptyLines a ++ nonEmptyLines b := by
  simp [nonEmptyLines]

theorem nonEmptyLines_cons_of_not_empty (v : Str) (ls : List Str) (h : v.isEmpty = false) :
    nonEmptyLines (v :: ls) = v :: nonEmptyLines ls := by
  simp [nonEmptyLines, h]

theorem nonEmptyLines_eq_self (ls : List Str) (h : ∀ v ∈ ls, v.isEmpty = false) :
    nonEmptyLines ls = ls := by
  unfold nonEmptyLines
  rw [List.filter_eq_self]
  intro v hv
  simp [h v hv]

theorem mem_nonEmptyLines {v : Str} {ls : List Str} (h : v ∈ nonEmptyLines ls) :
    v ∈ ls ∧ v.isEmpty = false := by
  unfold nonEmptyLines at h
  simpa using h

theorem nonEmptyLines_idem (ls : List Str) : nonEmptyLines (nonEmptyLines ls) = nonEmptyLines ls := by
  simp [nonEmptyLines]

theorem isMediaLine_not_empty (media v : Str) (h : isMediaLine media v = true) :
    v.isEmpty = false := by
  cases v with
  | nil => simp [isMediaLine, find] at h
  | cons c cs => rfl

theorem infoOrConn_not_empty (v : Str) (h : notInfoOrConn v = false) : v.isEmpty = false := by
  cases v with
  | nil => simp [notInfoOrConn, find] at h
  | cons c cs => rfl

theorem notInfoOrConn_b_line (n : Int) : notInfoOrConn (b_line n) = true := by
  simp [notInfoOrConn, b_line, find]

theorem isMediaLine_b_line (media : Str) (n : Int) : isMediaLine media (b_line n) = false := by
  simp [isMediaLine, b_line, find]

theorem keptRest_b_line (n : Int) (t : List Str) : keptRest (b_line n :: t) = t := by
  simp [keptRest, b_line_starts_with_b]

theorem keptRest_sub (rest : List Str) : ∀ v ∈ keptRest rest, v ∈ rest := by
  cases rest with
  | nil => simp [keptRest]
  | cons L post =>
    intro v hv
    simp only [keptRest] at hv
    split at hv
    · exact List.mem_cons_of_mem _ hv
    · exact hv

/-- The lines of the text written by `setMediaBitrate`, for a vector split at
its first media line. -/
theorem readLines_setMediaBitrate (sdp media : Str) (n : Int) (pre : List Str) (m : Str)
    (ics rest : List Str)
    (hl : readLines sdp = pre ++ m :: (ics ++ rest))
    (hpre : ∀ x ∈ pre, isMediaLine media x = false) (hm : isMediaLine media m = true)
    (hics : ∀ x ∈ ics, notInfoOrConn x = false)
    (hrest : ∀ L post, rest = L :: post → notInfoOrConn L = true) :
    readLines (setMediaBitrate sdp media n)
      = nonEmptyLines pre ++ m :: (ics ++ b_line n :: nonEmptyLines (keptRest rest)) := by
  rw [setMediaBitrate_split sdp media n pre m ics rest hl hpre hm hics hrest]
  have hin : ∀ l ∈ readLines sdp, '\n' ∉ l := readLines_no_newline sdp
  rw [hl] at hin
  rw [readLines_joinLines]
  · rw [nonEmptyLines_append, nonEmptyLines_cons_of_not_empty _ _ (isMediaLine_not_empty _ _ hm),
      nonEmptyLines_append, nonEmptyLines_eq_self ics (fun v hv => infoOrConn_not_empty v (hics v hv)),
      nonEmptyLines_cons_of_not_empty _ _ (b_line_not_empty n)]
  · intro l hl2
    simp only [List.mem_append, List.mem_cons] at hl2 hin
    rcases hl2 with h | h | h | h | h
    · exact hin l (Or.inl h)
    · exact hin l (Or.inr (Or.inl h))
    · exact hin l (Or.inr (Or.inr (Or.inl h)))
    · rw [h]; exact b_line_no_newline n
    · exact hin l (Or.inr (Or.inr (Or.inr (keptRest_sub rest l h))))

/-- A text with a line satisfying the media test splits at the first such line
and at the insertion point behind it. -/
theorem exists_split (sdp media : Str) (h : ∃ l ∈ readLines sdp, isMediaLine media l = true) :
    ∃ pre m ics rest, readLines sdp = pre ++ m :: (ics ++ rest) ∧
      (∀ x ∈ pre, isMediaLine media x = false) ∧ isMediaLine media m = true ∧
      (∀ x ∈ ics, notInfoOrConn x = false) ∧
      (∀ L post, rest = L :: post → notInfoOrConn L = true) := by
  obtain ⟨pre, m, t, hl, hpre, hm⟩ := split_at_first (isMediaLine media) (readLines sdp) h
  obtain ⟨ics, rest, ht, hics, hrest⟩ := split_prefix notInfoOrConn t
  exact ⟨pre, m, ics, rest, by rw [hl, ht], hpre, hm, hics, hrest⟩

/-- Without a line satisfying the media test the text is returned as it is. -/
theorem setMediaBitrate_absent (sdp media : Str) (n : Int)
    (h : ∀ l ∈ readLines sdp, isMediaLine media l = false) :
    setMediaBitrate sdp media n = sdp := by
  unfold setMediaBitrate
  simp [findIdx_all_false _ _ h]

/-- Rewriting a rewritten text changes nothing. -/
theorem setMediaBitrate_twice (sdp media : Str) (n : Int) :
    setMediaBitrate (setMediaBitrate sdp media n) media n = setMediaBitrate sdp media n := by
  by_cases h : ∃ l ∈ readLines sdp, isMediaLine media l = true
  · obtain ⟨pre, m, ics, rest, hl, hpre, hm, hics, hrest⟩ := exists_split sdp media h
    have h1 := readLines_setMediaBitrate sdp media n pre m ics rest hl hpre hm hics hrest
    have h2 := setMediaBitrate_split (setMediaBitrate sdp media n) media n (nonEmptyLines pre) m ics
      (b_line n :: nonEmptyLines (keptRest rest)) h1
      (fun x hx => hpre x (mem_nonEmptyLines hx).1) hm hics
      (by intro L post hh; cases hh; exact notInfoOrConn_b_line n)
    rw [h2, keptRest_b_line]
    rw [setMediaBitrate_split sdp media n pre m ics rest hl hpre hm hics hrest]
    rw [← joinLines_nonEmptyLines (pre ++ m :: (ics ++ b_line n :: keptRest rest))]
    rw [nonEmptyLines_append, nonEmptyLines_cons_of_not_empty _ _ (isMediaLine_not_empty _ _ hm),
      nonEmptyLines_append, nonEmptyLines_eq_self ics (fun v hv => infoOrConn_not_empty v (hics v hv)),
      nonEmptyLines_cons_of_not_empty _ _ (b_line_not_empty n)]
  · have h0 : ∀ l ∈ readLines sdp, isMediaLine media l = false := by
      intro l hl
      by_contra hc
      exact h ⟨l, hl, by simpa using hc⟩
    rw [setMediaBitrate_absent sdp media n h0, setMediaBitrate_absent sdp media n h0]

/-- The split of `readLines_setMediaBitrate`, with its conditions worded on
prefixes. -/
theorem split_conditions (media : Str) (pre : List Str) (m : Str) (ics rest : List Str)
    (hpre : ∀ x ∈ pre, ¬ (['m', '='] ++ media) <+: x)
    (hm : (['m', '='] ++ media) <+: m)
    (hics : ∀ x ∈ ics, ['i', '='] <+: x ∨ ['c', '='] <+: x)
    (hrest : ∀ L post, rest = L :: post → ¬ ['i', '='] <+: L ∧ ¬ ['c', '='] <+: L) :
    (∀ x ∈ pre, isMediaLine media x = false) ∧ isMediaLine media m = true ∧
      (∀ x ∈ ics, notInfoOrConn x = false) ∧
      (∀ L post, rest = L :: post → notInfoOrConn L = true) := by
  refine ⟨?_, (isMediaLine_iff media m).mpr hm, ?_, ?_⟩
  · intro x hx
    have := hpre x hx
    rw [← isMediaLine_iff] at this
    simpa using this
  · intro x hx
    have h1 := hics x hx
    by_contra hc
    have h2 : notInfoOrConn x = true := by simpa using hc
    rw [notInfoOrConn_iff] at h2
    rcases h1 with h1 | h1
    · exact h2.1 h1
    · exact h2.2 h1
  · intro L post hr
    exact (notInfoOrConn_iff L).mpr (hrest L post hr)

theorem joinLines_eq_flatMap (ls : List Str) (h : ∀ v ∈ ls, v.isEmpty = false) :
    joinLines ls = ls.flatMap fun v => v ++ ['\n'] := by
  induction ls with
  | nil => rfl
  | cons v vs ih =>
    have hv := h v (List.mem_cons_self _ _)
    simp [joinLines, hv, ih (fun w hw => h w (List.mem_cons_of_mem _ hw))]

theorem keptRest_cases (rest : List Str) :
    keptRest rest = rest ∨ ∃ x, rest = x :: keptRest rest := by
  cases rest with
  | nil => exact Or.inl rfl
  | cons L post =>
    by_cases hb : (find L ['b'] == some 0) = true
    · exact Or.inr ⟨L, by simp [keptRest, hb]⟩
    · exact Or.inl (by simp [keptRest, hb])

theorem dropWhile_at_split {α : Type} (p : α → Bool) (pre : List α) (m : α) (t : List α)
    (hpre : ∀ x ∈ pre, p x = false) (hm : p m = true) :
    (pre ++ m :: t).dropWhile (fun v => !p v) = m :: t := by
  induction pre with
  | nil => simp [List.dropWhile, hm]
  | cons a pre ih =>
    have ha : p a = false := hpre a (List.mem_cons_self _ _)
    simp [List.dropWhile, ha, ih (fun x hx => hpre x (List.mem_cons_of_mem _ hx))]

theorem takeWhile_append_of_all {α : Type} (p : α → Bool) (a b : List α)
    (h : ∀ x ∈ a, p x = true) : (a ++ b).takeWhile p = a ++ b.takeWhile p := by
  induction a with
  | nil => rfl
  | cons x xs ih =>
    simp [List.takeWhile, h x (List.mem_cons_self _ _),
      ih (fun y hy => h y (List.mem_cons_of_mem _ hy))]

theorem infoOrConn_not_m (v : Str) (h : notInfoOrConn v = false) :
    (!(find v ['m', '='] == some 0)) = true := by
  cases v with
  | nil => simp [find]
  | cons c cs =>
    by_cases hc : c = 'm'
    · subst hc
      simp [notInfoOrConn, find] at h
    · simp [find, hc]
      intro h2
      exact absurd h2.symm hc

theorem b_line_not_m (n : Int) : (!(find (b_line n) ['m', '='] == some 0)) = true := by
  simp [b_line, find]

/-- The media section of a vector split at its first media line. -/
theorem mediaSection_split (media : Str) (pre : List Str) (m : Str) (ics X : List Str)
    (hpre : ∀ x ∈ pre, isMediaLine media x = false) (hm : isMediaLine media m = true)
    (hics : ∀ x ∈ ics, notInfoOrConn x = false) :
    mediaSection media (pre ++ m :: (ics ++ X))
      = ics ++ X.takeWhile fun v => !(find v ['m', '='] == some 0) := by
  unfold mediaSection
  rw [dropWhile_at_split _ _ _ _ hpre hm]
  simp only [List.drop_succ_cons, List.drop_zero]
  exact takeWhile_append_of_all _ _ _ (fun x hx => infoOrConn_not_m x (hics x hx))

theorem takeWhile_nonEmptyLines (ls : List Str) :
    (nonEmptyLines ls).takeWhile (fun v => !(find v ['m', '='] == some 0))
      = nonEmptyLines (ls.takeWhile fun v => !(find v ['m', '='] == some 0)) := by
  unfold nonEmptyLines
  induction ls with
  | nil => rfl
  | cons v vs ih =>
    cases v with
    | nil => simpa [List.takeWhile, find] using ih
    | cons c cs =>
      by_cases hp : (find (c :: cs) ['m', '='] == some 0) = true
      · simp [List.takeWhile, hp]
      · simp [List.takeWhile, hp, ih]

theorem eraseIdx_at_split {α : Type} (a b : List α) :
    (a ++ b).eraseIdx a.length = a ++ b.drop 1 := by
  induction a with
  | nil => cases b <;> simp
  | cons x xs ih => simpa using ih

/-- The lines equal to `b=AS:<n>` in the media section of the rewritten text. -/
theorem count_b_line_section (sdp media : Str) (n : Int) (pre : List Str) (m : Str)
    (ics rest : List Str)
    (hl : readLines sdp = pre ++ m :: (ics ++ rest))
    (hpre : ∀ x ∈ pre, isMediaLine media x = false) (hm : isMediaLine media m = true)
    (hics : ∀ x ∈ ics, notInfoOrConn x = false)
    (hrest : ∀ L post, rest = L :: post → notInfoOrConn L = true)
    (hother : b_line n ∉ (mediaSection media (readLines sdp)).eraseIdx
      ((mediaSection media (readLines sdp)).findIdx notInfoOrConn)) :
    (mediaSection media (readLines (setMediaBitrate sdp media n))).count (b_line n) = 1 := by
  rw [readLines_setMediaBitrate sdp media n pre m ics rest hl hpre hm hics hrest,
    mediaSection_split media _ m ics _ (fun x hx => hpre x (mem_nonEmptyLines hx).1) hm hics]
  rw [hl, mediaSection_split media pre m ics rest hpre hm hics] at hother
  have hidx : (ics ++ rest.takeWhile fun v => !(find v ['m', '='] == some 0)).findIdx notInfoOrConn
      = ics.length := by
    cases rest with
    | nil => simpa using findIdx_all_false _ _ hics
    | cons L post =>
      by_cases hL : (find L ['m', '='] == some 0) = true
      · simpa [List.takeWhile, hL] using findIdx_all_false _ _ hics
      · simp only [List.takeWhile, hL]
        exact findIdx_at_split _ _ _ _ hics (hrest L post rfl)
  rw [hidx, eraseIdx_at_split] at hother
  have hnot : b_line n ∉ (rest.takeWhile fun v => !(find v ['m', '='] == some 0)).drop 1 :=
    fun h => hother (List.mem_append_right _ h)
  have hkept : b_line n ∉ (keptRest rest).takeWhile fun v => !(find v ['m', '='] == some 0) := by
    cases rest with
    | nil => simp [keptRest]
    | cons L post =>
      by_cases hb : (find L ['b'] == some 0) = true
      · have hLm : (find L ['m', '='] == some 0) = false := by
          cases L with
          | nil => simp [find]
          | cons c cs =>
            by_cases hc : c = 'b'
            · subst hc; simp [find]
            · simp [find, hc] at hb
              exact absurd hb.symm hc
        simpa [keptRest, hb, List.takeWhile, hLm] using hnot
      · have hk : keptRest (L :: post) = L :: post := by simp [keptRest, hb]
        rw [hk]
        by_cases hL : (find L ['m', '='] == some 0) = true
        · simp [List.takeWhile, hL]
        · simp only [List.takeWhile, hL, Bool.not_false, List.drop_succ_cons, List.drop_zero] at hnot ⊢
          intro hmem
          rcases List.mem_cons.mp hmem with h1 | h1
          · rw [← h1] at hb
            exact hb (b_line_starts_with_b n)
          · exact hnot h1
  rw [List.takeWhile_cons, if_pos (b_line_not_m n), takeWhile_nonEmptyLines, List.count_append,
    List.count_cons_self]
  have h1 : ics.count (b_line n) = 0 := by
    rw [List.count_eq_zero]
    intro hmem
    have := hics _ hmem
    rw [notInfoOrConn_b_line] at this
    exact Bool.noConfusion this
  have h2 : (nonEmptyLines ((keptRest rest).takeWhile
      fun v => !(find v ['m', '='] == some 0))).count (b_line n) = 0 := by
    rw [List.count_eq_zero]
    intro hmem
    exact hkept (mem_nonEmptyLines hmem).1
  rw [h1, h2]

/-! ## Lemmas on the event stream and the negotiation -/

theorem strncmp_eq_zero_iff (b : Str) (hb : ∀ c ∈ b, c.toNat ≠ 0) :
    ∀ a : Str, strncmp a b b.length = 0 ↔ b <+: a := by
  induction b with
  | nil => intro a; simp [strncmp]
  | cons y ys ih =>
    have hy : y.toNat ≠ 0 := hb y (List.mem_cons_self _ _)
    have ih2 := ih (fun c hc => hb c (List.mem_cons_of_mem _ hc))
    intro a
    cases a with
    | nil =>
      simp only [List.length_cons, strncmp]
      constructor
      · intro h; omega
      · intro h; simp at h
    | cons x xs =>
      simp only [List.length_cons, strncmp]
      by_cases hxy : x = y
      · subst hxy
        simp only [if_true]
        rw [ih2 xs]
        constructor
        · intro h; exact (List.cons_prefix_cons).mpr ⟨rfl, h⟩
        · intro h; exact ((List.cons_prefix_cons).mp h).2
      · simp only [hxy, if_false]
        constructor
        · intro h
          exfalso
          apply hxy
          have e : x.toNat = y.toNat := by omega
          rw [← Char.ofNat_toNat x, ← Char.ofNat_toNat y, e]
        · intro h
          exact absurd ((List.cons_prefix_cons).mp h).1.symm hxy

theorem verify_sse_response_eq_none_iff (content_type : Option Str) :
    verify_sse_response content_type = none
      ↔ expected_content_type <+: content_type.getD [] := by
  have hb : ∀ c ∈ expected_content_type, c.toNat ≠ 0 := by decide
  have key := strncmp_eq_zero_iff expected_content_type hb
  cases content_type with
  | none =>
    simp only [verify_sse_response, Option.getD_none]
    rw [← key []]
    split <;> simp_all
  | some ct =>
    simp only [verify_sse_response, Option.getD_some]
    rw [← key ct]
    split <;> simp_all

theorem stepStream_idle (lib : Lib) (m : Move) (s : Sys) (h : s.phase = StreamPhase.idle) :
    stepStream lib m s = s := by
  unfold stepStream
  cases m <;> simp [h]

/-- The state a rejected call leaves: nothing moves in it any more. -/
theorem step_rejected (lib : Lib) (m : Move) (s : Sys) (hpc : s.pc = MainPc.returned)
    (hph : s.phase = StreamPhase.idle) : step lib m s = s := by
  unfold step
  rw [if_neg (by rw [hpc]; exact fun h => MainPc.noConfusion h)]
  cases m with
  | main => simp [stepMain, hpc]
  | headers ct => exact stepStream_idle lib _ s hph
  | data chunk => exact stepStream_idle lib _ s hph
  | finish => exact stepStream_idle lib _ s hph

theorem step_initial (lib : Lib) (m : Move) (w : World) (desc : Desc) :
    step lib m (initial w desc) = initial w desc ∨
      step lib m (initial w desc) = send_sdp_to_peer_call desc (initial w desc) := by
  cases m with
  | main => right; simp [step, stepMain, initial]
  | headers ct => left; simp [step, initial, stepStream]
  | data chunk => left; simp [step, initial, stepStream]
  | finish => left; simp [step, initial, stepStream]

theorem send_sdp_to_peer_call_rejected (desc : Desc) (s : Sys)
    (h : s.world.app_state.toInt < AppState.PEER_CALL_NEGOTIATING.toInt) :
    send_sdp_to_peer_call desc s =
      { s with
        world := cleanup_and_quit_loop (some "Can't send SDP to peer, not in call".toList)
          AppState.APP_STATE_ERROR s.world
        pc := MainPc.returned } := by
  unfold send_sdp_to_peer_call
  rw [if_pos h]

theorem cleanup_and_quit_loop_effects (msg : Str) (state : AppState) (w : World) :
    (cleanup_and_quit_loop (some msg) state w).effects
      = w.effects ++ (Effect.printerr msg :: if w.loop then [Effect.loop_quit] else []) := by
  unfold cleanup_and_quit_loop
  cases hl : w.loop <;> by_cases hs : state.toInt > 0 <;> simp [hl, hs]

theorem cleanup_and_quit_loop_app_state (msg : Option Str) (state : AppState) (w : World)
    (h : state.toInt > 0) : (cleanup_and_quit_loop msg state w).app_state = state := by
  unfold cleanup_and_quit_loop
  cases hl : w.loop <;> cases msg <;> simp [hl, h]

theorem cleanup_and_quit_loop_loop (msg : Option Str) (state : AppState) (w : World) :
    (cleanup_and_quit_loop msg state w).loop = false := by
  unfold cleanup_and_quit_loop
  cases hl : w.loop <;> cases msg <;> by_cases hs : state.toInt > 0 <;> simp [hl, hs]

/-- The executions of a call made below `PEER_CALL_NEGOTIATING`. -/
theorem run_rejected (lib : Lib) (w : World) (desc : Desc)
    (h : w.app_state.toInt < AppState.PEER_CALL_NEGOTIATING.toInt) (schedule : List Move) :
    ∀ s, (s = initial w desc ∨ s = send_sdp_to_peer_call desc (initial w desc)) →
      (run lib schedule s = initial w desc ∨
        run lib schedule s = send_sdp_to_peer_call desc (initial w desc)) := by
  induction schedule with
  | nil => intro s hs; exact hs
  | cons m ms ih =>
    intro s hs
    show run lib ms (step lib m s) = _ ∨ run lib ms (step lib m s) = _
    apply ih
    rcases hs with rfl | rfl
    · exact step_initial lib m w desc
    · right
      apply step_rejected
      · rw [send_sdp_to_peer_call_rejected desc _ h]
      · rw [send_sdp_to_peer_call_rejected desc _ h]; rfl

theorem publishAfterOpen_append (t new : List Effect) (h : PublishAfterOpen t)
    (hnew : ∀ x ∈ new, x.isPost = false) : PublishAfterOpen (t ++ new) := by
  intro before x after heq hx
  have hxn : x ∉ new := by
    intro hmem
    rw [hnew x hmem] at hx
    exact Bool.noConfusion hx
  rcases List.append_eq_append_iff.mp heq with ⟨a, ha, hb⟩ | ⟨c, hc, hd⟩
  · exact absurd (by rw [hb]; simp) hxn
  · cases c with
    | nil =>
      simp only [List.nil_append] at hd
      exact absurd (by rw [← hd]; exact List.mem_cons_self _ _) hxn
    | cons z zs =>
      simp only [List.cons_append, List.cons.injEq] at hd
      obtain ⟨rfl, _⟩ := hd
      exact h before x zs hc hx

theorem publishAfterOpen_post (t : List Effect) (x : Effect) (h : PublishAfterOpen t)
    (hopen : Effect.started_set true ∈ t) : PublishAfterOpen (t ++ [x]) := by
  intro before y after heq hy
  rcases List.append_eq_append_iff.mp heq with ⟨a, ha, hb⟩ | ⟨c, hc, hd⟩
  · rw [ha]
    exact List.mem_append_left _ hopen
  · cases c with
    | nil =>
      simp only [List.append_nil] at hc
      rw [← hc]; exact hopen
    | cons z zs =>
      simp only [List.cons_append, List.cons.injEq] at hd
      obtain ⟨rfl, _⟩ := hd
      exact h before y zs hc hy

theorem attemptInvariant_quiet (lib : Lib) (e0 : List Effect) (schedule : List Move) (m : Move)
    (s t : Sys) (h : AttemptInvariant lib e0 schedule s) (hq : Quiet s t) :
    AttemptInvariant lib e0 (schedule ++ [m]) t := by
  obtain ⟨trace, he, h1, h2, h3, h4, h5⟩ := h
  obtain ⟨new, hn, hnew, hv, hpc⟩ := hq
  refine ⟨trace ++ new, by rw [hn, he, List.append_assoc], ?_, ?_, ?_, ?_, ?_⟩
  · exact publishAfterOpen_append _ _ h1 (fun x hx => (hnew x hx).1)
  · intro ht
    exact List.mem_append_left _ (h2 (by rw [← hv]; exact ht))
  · rintro ⟨x, hx, hp⟩
    rw [hv]
    rcases List.mem_append.mp hx with hx | hx
    · exact h3 ⟨x, hx, hp⟩
    · rw [(hnew x hx).1] at hp
      exact Bool.noConfusion hp
  · intro hmem
    rcases List.mem_append.mp hmem with hx | hx
    · obtain ⟨chunk, hc, hd⟩ := h4 hx
      exact ⟨chunk, List.mem_append_left _ hc, hd⟩
    · exact absurd rfl (hnew _ hx).2
  · intro d hd
    have hts := hpc d hd
    subst hts
    obtain ⟨ht, hs, hp⟩ := h5 d hd
    have hnil : new = [] := by
      have := hn
      rw [he] at this
      simpa using this
    exact ⟨by rw [ht, hnil]; rfl, hs, hp⟩

theorem quiet_refl (s : Sys) : Quiet s s :=
  ⟨[], by simp, by simp, rfl, fun _ _ => rfl⟩

theorem on_data_started_keep (lib : Lib) (chunk : Str) (v v1 : StreamVars) (b : Bool)
    (h : on_data lib chunk v = some v1) (hb : v.startedPromise = some b) :
    v1.startedPromise = some b := by
  unfold on_data at h
  split at h
  · rename_i v2 htry
    injection h with h
    subst h
    unfold on_data_try at htry
    repeat' split at htry
    all_goals first
      | (injection htry with htry; subst htry; first | exact hb | simp_all)
      | exact Res.noConfusion htry
  · exact Option.noConfusion h
  · rw [hb] at h
    exact Option.noConfusion h

theorem on_data_started_open (lib : Lib) (chunk : Str) (v v1 : StreamVars)
    (h : on_data lib chunk v = some v1) (hn : v.startedPromise = none)
    (ht : v1.startedPromise = some true) : decodedEvent lib chunk = some "open".toList := by
  unfold on_data at h
  split at h
  · rename_i v2 htry
    injection h with h
    subst h
    unfold on_data_try at htry
    unfold decodedEvent
    repeat' split at htry
    all_goals first
      | exact Res.noConfusion htry
      | (injection htry with htry; subst htry; simp_all)
  · exact Option.noConfusion h
  · rw [hn] at h
    injection h with h
    subst h
    simp at ht

theorem quiet_of (s t : Sys) (new : List Effect)
    (he : t.world.effects = s.world.effects ++ new)
    (hnew : ∀ x ∈ new, x.isPost = false ∧ x ≠ Effect.started_set true)
    (hv : t.vars.startedPromise = s.vars.startedPromise)
    (hpc : ∀ d, t.pc ≠ MainPc.call d) : Quiet s t :=
  ⟨new, he, hnew, hv, fun d hd => absurd hd (hpc d)⟩

theorem cleanup_quiet_effects (msg : Str) (w : Bool) :
    ∀ x ∈ (Effect.printerr msg :: if w then [Effect.loop_quit] else []),
      x.isPost = false ∧ x ≠ Effect.started_set true := by
  intro x hx
  rcases List.mem_cons.mp hx with rfl | hx
  · exact ⟨rfl, fun h => Effect.noConfusion h⟩
  · cases w <;> simp at hx
    subst hx
    exact ⟨rfl, fun h => Effect.noConfusion h⟩

theorem send_sdp_to_peer_response_quiet (lib : Lib) (text : Str) (s : Sys) :
    Quiet s (send_sdp_to_peer_response lib text s) := by
  unfold send_sdp_to_peer_response
  split
  · exact quiet_of _ _ [_] rfl (by simp [Effect.isPost]) rfl (by simp)
  · exact quiet_of _ _ [_] rfl (by simp [Effect.isPost]) rfl (by simp)
  · split
    · exact quiet_of _ _ _ (cleanup_and_quit_loop_effects _ _ _) (cleanup_quiet_effects _ _) rfl
        (by simp)
    · split
      · exact quiet_of _ _ [] (by simp) (by simp) rfl (by simp)
      · split
        · exact quiet_of _ _ [] (by simp) (by simp) rfl (by simp)
        · split
          · exact quiet_of _ _ [] (by simp) (by simp) rfl (by simp)
          · split
            · exact quiet_of _ _ [_, _] rfl (by simp [Effect.isPost]) rfl (by simp)
            · exact quiet_of _ _ [] (by simp) (by simp) rfl (by simp)

theorem stepStream_quiet_of_not_data (lib : Lib) (m : Move) (s : Sys)
    (hm : ∀ chunk, m ≠ Move.data chunk) (hpc : ∀ d, s.pc = MainPc.call d → s.phase = StreamPhase.idle) :
    Quiet s (stepStream lib m s) := by
  by_cases hidle : s.phase = StreamPhase.idle
  · rw [stepStream_idle lib m s hidle]; exact quiet_refl s
  · have hnc : ∀ d, s.pc ≠ MainPc.call d := fun d hd => hidle (hpc d hd)
    unfold stepStream
    split
    · split
      · exact quiet_of _ _ [] (by simp) (by simp) rfl hnc
      · exact quiet_of _ _ [] (by simp) (by simp) rfl hnc
    · rename_i chunk _
      exact absurd rfl (hm chunk)
    · exact quiet_of _ _ [] (by simp) (by simp) rfl hnc
    · exact quiet_of _ _ [] (by simp) (by simp) rfl hnc
    · exact quiet_refl s

theorem promiseEffects_no_post (v v1 : StreamVars) :
    ∀ x ∈ promiseEffects v v1, x.isPost = false := by
  intro x hx
  unfold promiseEffects at hx
  rcases List.mem_append.mp hx with h | h
  · split at h <;> simp at h
    subst h; rfl
  · split at h <;> simp at h
    subst h; rfl

theorem promiseEffects_started (v v1 : StreamVars) (b : Bool) :
    Effect.started_set b ∈ promiseEffects v v1
      ↔ v.startedPromise = none ∧ v1.startedPromise = some b := by
  unfold promiseEffects
  cases h1 : v.startedPromise <;> cases h2 : v1.startedPromise <;>
    cases h3 : v.responsePromise <;> cases h4 : v1.responsePromise <;> simp <;> exact eq_comm

/-- Every move keeps the invariant of a negotiation attempt. -/
theorem step_attemptInvariant (lib : Lib) (e0 : List Effect) (schedule : List Move) (m : Move)
    (s : Sys) (h : AttemptInvariant lib e0 schedule s) :
    AttemptInvariant lib e0 (schedule ++ [m]) (step lib m s) := by
  have hcall : ∀ d, s.pc = MainPc.call d → s.phase = StreamPhase.idle := by
    obtain ⟨trace, _, _, _, _, _, h5⟩ := h
    exact fun d hd => (h5 d hd).2.2
  unfold step
  by_cases hab : s.pc = MainPc.aborted
  · rw [if_pos hab]
    exact attemptInvariant_quiet lib e0 schedule m s s h (quiet_refl s)
  rw [if_neg hab]
  cases m with
  | headers ct =>
    exact attemptInvariant_quiet lib e0 schedule _ s _ h
      (stepStream_quiet_of_not_data lib _ s (fun c hc => Move.noConfusion hc) hcall)
  | finish =>
    exact attemptInvariant_quiet lib e0 schedule _ s _ h
      (stepStream_quiet_of_not_data lib _ s (fun c hc => Move.noConfusion hc) hcall)
  | data chunk =>
    show AttemptInvariant lib e0 (schedule ++ [Move.data chunk]) (stepStream lib (Move.data chunk) s)
    by_cases hrec : s.phase = StreamPhase.receiving
    · have hnc : ∀ d, s.pc ≠ MainPc.call d := by
        intro d hd
        rw [hcall d hd] at hrec
        exact StreamPhase.noConfusion hrec
      simp only [stepStream, hrec]
      by_cases hint : s.vars.requestInterrupted = true
      · rw [if_pos hint]
        exact attemptInvariant_quiet lib e0 schedule _ s s h (quiet_refl s)
      · rw [if_neg hint]
        cases hod : on_data lib chunk s.vars with
        | none =>
          exact attemptInvariant_quiet lib e0 schedule _ s _ h
            (quiet_of _ _ [] (by simp) (by simp) rfl (by simp))
        | some vars =>
          obtain ⟨trace, he, h1, h2, h3, h4, h5⟩ := h
          dsimp only
          refine ⟨trace ++ promiseEffects s.vars vars, ?_, ?_, ?_, ?_, ?_, ?_⟩
          · show s.world.effects ++ promiseEffects s.vars vars = _
            rw [he, List.append_assoc]
          · exact publishAfterOpen_append _ _ h1 (promiseEffects_no_post _ _)
          · intro ht
            change vars.startedPromise = some true at ht
            cases hsp : s.vars.startedPromise with
            | none =>
              exact List.mem_append_right _ ((promiseEffects_started _ _ true).mpr ⟨hsp, ht⟩)
            | some b =>
              have := on_data_started_keep lib chunk s.vars vars b hod hsp
              rw [ht] at this
              injection this with this
              subst this
              exact List.mem_append_left _ (h2 hsp)
          · rintro ⟨x, hx, hp⟩
            show vars.startedPromise = some true
            rcases List.mem_append.mp hx with hx | hx
            · exact on_data_started_keep lib chunk s.vars vars true hod (h3 ⟨x, hx, hp⟩)
            · rw [promiseEffects_no_post _ _ x hx] at hp
              exact Bool.noConfusion hp
          · intro hmem
            rcases List.mem_append.mp hmem with hx | hx
            · obtain ⟨c, hc, hd⟩ := h4 hx
              exact ⟨c, List.mem_append_left _ hc, hd⟩
            · obtain ⟨hn, ht⟩ := (promiseEffects_started _ _ true).mp hx
              exact ⟨chunk, by simp, on_data_started_open lib chunk s.vars vars hod hn ht⟩
          · intro d hd
            exact absurd hd (hnc d)
    · have : stepStream lib (Move.data chunk) s = s := by
        unfold stepStream
        cases hp : s.phase <;> simp_all
      rw [this]
      exact attemptInvariant_quiet lib e0 schedule _ s s h (quiet_refl s)
  | main =>
    show AttemptInvariant lib e0 (schedule ++ [Move.main]) (stepMain lib s)
    unfold stepMain
    split
    · rename_i desc hpc
      obtain ⟨trace, he, h1, h2, h3, h4, h5⟩ := h
      obtain ⟨ht, hs, hp⟩ := h5 desc hpc
      apply attemptInvariant_quiet lib e0 schedule _ s _ ⟨trace, he, h1, h2, h3, h4, h5⟩
      unfold send_sdp_to_peer_call
      split
      · exact quiet_of _ _ _ (cleanup_and_quit_loop_effects _ _ _) (cleanup_quiet_effects _ _) rfl
          (by simp)
      · split
        · exact quiet_of _ _ [_, _] rfl (by simp [Effect.isPost]) hs.symm (by simp)
        · exact quiet_of _ _ [_, _] rfl (by simp [Effect.isPost]) hs.symm (by simp)
        · exact quiet_of _ _ [] (by simp) (by simp) rfl (by simp)
    · rename_i type sdp hpc
      split
      · rename_i started hst
        cases started with
        | false =>
          exact attemptInvariant_quiet lib e0 schedule _ s _ h
            (quiet_of _ _ [_] rfl (by simp [Effect.isPost]) rfl
              (by simp [send_sdp_to_peer_started]))
        | true =>
          obtain ⟨trace, he, h1, h2, h3, h4, h5⟩ := h
          refine ⟨trace ++ [Effect.http_post send_offer_url type sdp], ?_, ?_, ?_, ?_, ?_, ?_⟩
          · show s.world.effects ++ _ = _
            rw [he, List.append_assoc]
          · exact publishAfterOpen_post _ _ h1 (h2 hst)
          · intro _
            exact List.mem_append_left _ (h2 hst)
          · intro _
            exact hst
          · intro hmem
            rcases List.mem_append.mp hmem with hx | hx
            · obtain ⟨c, hc, hd⟩ := h4 hx
              exact ⟨c, List.mem_append_left _ hc, hd⟩
            · simp at hx
          · intro d hd
            simp [send_sdp_to_peer_started] at hd
      · split
        · exact attemptInvariant_quiet lib e0 schedule _ s _ h
            (quiet_of _ _ [] (by simp) (by simp) rfl (by simp))
        · exact attemptInvariant_quiet lib e0 schedule _ s s h (quiet_refl s)
    · split
      · exact attemptInvariant_quiet lib e0 schedule _ s _ h
          (send_sdp_to_peer_response_quiet lib _ s)
      · split
        · exact attemptInvariant_quiet lib e0 schedule _ s _ h
            (quiet_of _ _ [] (by simp) (by simp) rfl (by simp))
        · exact attemptInvariant_quiet lib e0 schedule _ s s h (quiet_refl s)
    · exact attemptInvariant_quiet lib e0 schedule _ s s h (quiet_refl s)
    · exact attemptInvariant_quiet lib e0 schedule _ s s h (quiet_refl s)

theorem run_append (lib : Lib) (a b : List Move) (s : Sys) :
    run lib (a ++ b) s = run lib b (run lib a s) := by
  simp [run, List.foldl_append]

/-- Every state of an execution satisfies the invariant. -/
theorem run_attemptInvariant (lib : Lib) (w : World) (desc : Desc) (schedule : List Move) :
    AttemptInvariant lib w.effects schedule (run lib schedule (initial w desc)) := by
  induction schedule using List.reverseRecOn with
  | nil =>
    exact ⟨[], by simp [run, initial], by intro b x a h; simp at h, by simp [run, initial],
      by simp, by simp, by intro d _; simp [run, initial]⟩
  | append_singleton ms m ih =>
    rw [run_append]
    exact step_attemptInvariant lib w.effects ms m _ ih

theorem quiet_keep (s t : Sys) (b : Bool) (hq : Quiet s t) (hpc : ∀ d, s.pc ≠ MainPc.call d)
    (hb : s.vars.startedPromise = some b) :
    t.vars.startedPromise = some b ∧ ∀ d, t.pc ≠ MainPc.call d := by
  obtain ⟨new, _, _, hv, hc⟩ := hq
  refine ⟨by rw [hv]; exact hb, ?_⟩
  intro d hd
  have := hc d hd
  subst this
  exact hpc d hd

/-- Once the `started` promise has a value, no move changes it. -/
theorem step_started_keep (lib : Lib) (m : Move) (s : Sys) (b : Bool)
    (hpc : ∀ d, s.pc ≠ MainPc.call d) (hb : s.vars.startedPromise = some b) :
    (step lib m s).vars.startedPromise = some b ∧ ∀ d, (step lib m s).pc ≠ MainPc.call d := by
  have hcall : ∀ d, s.pc = MainPc.call d → s.phase = StreamPhase.idle :=
    fun d hd => absurd hd (hpc d)
  unfold step
  by_cases hab : s.pc = MainPc.aborted
  · rw [if_pos hab]; exact ⟨hb, hpc⟩
  rw [if_neg hab]
  cases m with
  | headers ct =>
    exact quiet_keep s _ b
      (stepStream_quiet_of_not_data lib _ s (fun c hc => Move.noConfusion hc) hcall) hpc hb
  | finish =>
    exact quiet_keep s _ b
      (stepStream_quiet_of_not_data lib _ s (fun c hc => Move.noConfusion hc) hcall) hpc hb
  | data chunk =>
    show (stepStream lib (Move.data chunk) s).vars.startedPromise = some b ∧
      ∀ d, (stepStream lib (Move.data chunk) s).pc ≠ MainPc.call d
    by_cases hrec : s.phase = StreamPhase.receiving
    · simp only [stepStream, hrec]
      by_cases hint : s.vars.requestInterrupted = true
      · rw [if_pos hint]; exact ⟨hb, hpc⟩
      · rw [if_neg hint]
        cases hod : on_data lib chunk s.vars with
        | none => exact ⟨hb, by simp⟩
        | some vars => exact ⟨on_data_started_keep lib chunk s.vars vars b hod hb, hpc⟩
    · have : stepStream lib (Move.data chunk) s = s := by
        unfold stepStream
        cases hp : s.phase <;> simp_all
      rw [this]; exact ⟨hb, hpc⟩
  | main =>
    show (stepMain lib s).vars.startedPromise = some b ∧ ∀ d, (stepMain lib s).pc ≠ MainPc.call d
    unfold stepMain
    split
    · rename_i desc hd
      exact absurd hd (hpc desc)
    · split
      · rename_i started hst
        unfold send_sdp_to_peer_started
        cases started <;> exact ⟨hb, by simp⟩
      · split
        · exact ⟨hb, by simp⟩
        · exact ⟨hb, hpc⟩
    · split
      · exact quiet_keep s _ b (send_sdp_to_peer_response_quiet lib _ s) hpc hb
      · split
        · exact ⟨hb, by simp⟩
        · exact ⟨hb, hpc⟩
    · exact ⟨hb, hpc⟩
    · exact ⟨hb, hpc⟩

theorem run_started_keep (lib : Lib) (more : List Move) :
    ∀ (s : Sys) (b : Bool), (∀ d, s.pc ≠ MainPc.call d) → s.vars.startedPromise = some b →
      (run lib more s).vars.startedPromise = some b := by
  induction more with
  | nil => intro s b _ hb; exact hb
  | cons m ms ih =>
    intro s b hpc hb
    obtain ⟨h1, h2⟩ := step_started_keep lib m s b hpc hb
    exact ih (step lib m s) b h2 h1

theorem promiseEffects_isPromiseSet (v v1 : StreamVars) :
    ∀ x ∈ promiseEffects v v1, x.isPromiseSet = true := by
  intro x hx
  unfold promiseEffects at hx
  rcases List.mem_append.mp hx with h | h
  · split at h <;> simp at h
    subst h; rfl
  · split at h <;> simp at h
    subst h; rfl

/-- Once `send_sdp_to_peer` is back, or the process is down, a move changes
neither `app_state` nor `loop`, and adds only values given to promises. -/
theorem step_finished (lib : Lib) (m : Move) (s : Sys)
    (h : s.pc = MainPc.returned ∨ s.pc = MainPc.aborted) :
    ((step lib m s).pc = MainPc.returned ∨ (step lib m s).pc = MainPc.aborted) ∧
    (step lib m s).world.app_state = s.world.app_state ∧
    (step lib m s).world.loop = s.world.loop ∧
    ∃ new, (step lib m s).world.effects = s.world.effects ++ new ∧
      ∀ e ∈ new, e.isPromiseSet = true := by
  have same : (s.pc = MainPc.returned ∨ s.pc = MainPc.aborted) ∧
      s.world.app_state = s.world.app_state ∧ s.world.loop = s.world.loop ∧
      ∃ new, s.world.effects = s.world.effects ++ new ∧ ∀ e ∈ new, e.isPromiseSet = true :=
    ⟨h, rfl, rfl, [], by simp, by simp⟩
  unfold step
  by_cases hab : s.pc = MainPc.aborted
  · rw [if_pos hab]; exact same
  rw [if_neg hab]
  have hret : s.pc = MainPc.returned := h.resolve_right hab
  cases m with
  | main =>
    have : stepMain lib s = s := by simp [stepMain, hret]
    show (_ ∨ _) ∧ _
    rw [this]; exact same
  | headers ct =>
    show ((stepStream lib (Move.headers ct) s).pc = _ ∨ _) ∧ _
    unfold stepStream
    split
    · split
      · exact ⟨h, rfl, rfl, [], by simp, by simp⟩
      · exact ⟨h, rfl, rfl, [], by simp, by simp⟩
    · rename_i hm _; exact Move.noConfusion hm
    · rename_i hm _; exact Move.noConfusion hm
    · rename_i hm _; exact Move.noConfusion hm
    · exact same
  | finish =>
    show ((stepStream lib Move.finish s).pc = _ ∨ _) ∧ _
    unfold stepStream
    split
    · rename_i hm _; exact Move.noConfusion hm
    · rename_i hm _; exact Move.noConfusion hm
    · exact ⟨h, rfl, rfl, [], by simp, by simp⟩
    · exact ⟨h, rfl, rfl, [], by simp, by simp⟩
    · exact same
  | data chunk =>
    show ((stepStream lib (Move.data chunk) s).pc = _ ∨ _) ∧ _
    unfold stepStream
    split
    · rename_i hm _; exact Move.noConfusion hm
    · split
      · exact same
      · split
        · exact ⟨Or.inr rfl, rfl, rfl, [], by simp, by simp⟩
        · rename_i vars _
          exact ⟨h, rfl, rfl, promiseEffects s.vars vars, rfl, promiseEffects_isPromiseSet _ _⟩
    · rename_i hm _; exact Move.noConfusion hm
    · rename_i hm _; exact Move.noConfusion hm
    · exact same

theorem run_finished (lib : Lib) (more : List Move) :
    ∀ s : Sys, (s.pc = MainPc.returned ∨ s.pc = MainPc.aborted) →
      (run lib more s).world.app_state = s.world.app_state ∧
      (run lib more s).world.loop = s.world.loop ∧
      ∃ new, (run lib more s).world.effects = s.world.effects ++ new ∧
        ∀ e ∈ new, e.isPromiseSet = true := by
  induction more with
  | nil => intro s _; exact ⟨rfl, rfl, [], by simp [run], by simp⟩
  | cons m ms ih =>
    intro s h
    obtain ⟨h1, h2, h3, new1, h4, h5⟩ := step_finished lib m s h
    obtain ⟨k2, k3, new2, k4, k5⟩ := ih (step lib m s) h1
    refine ⟨k2.trans h2, k3.trans h3, new1 ++ new2, ?_, ?_⟩
    · show (run lib ms (step lib m s)).world.effects = _
      rw [k4, h4, List.append_assoc]
    · intro e he
      rcases List.mem_append.mp he with he | he
      · exact h5 e he
      · exact k5 e he

/-- The move of `send_sdp_to_peer` that has the payload of the message. -/
theorem step_main_response (lib : Lib) (s : Sys) (text : Str)
    (hpc : s.pc = MainPc.awaitResponse) (hresp : s.vars.responsePromise = some text) :
    step lib Move.main s = send_sdp_to_peer_response lib text s := by
  unfold step
  rw [if_neg (by rw [hpc]; exact fun h => MainPc.noConfusion h)]
  simp only [stepMain, hpc, hresp]

theorem on_data_try_second_open (lib : Lib) (chunk : Str) (v : StreamVars) (b : Bool)
    (hopen : decodedEvent lib chunk = some "open".toList) (hset : v.startedPromise = some b) :
    on_data_try lib chunk v = Res.throw := by
  unfold decodedEvent at hopen
  split at hopen
  · exact Option.noConfusion hopen
  · rename_i pData hf
    split at hopen
    · rename_i child hp
      have hmem : json_object_has_member child "event".toList = true := by
        unfold json_object_get_string_member at hopen
        unfold json_object_has_member
        cases hl : List.lookup "event".toList child with
        | none =>
          rw [hl] at hopen
          exact Option.noConfusion hopen
        | some x => rfl
      unfold on_data_try
      simp only [hf, hp, hmem, hopen, hset, Bool.not_true, if_true]
      rfl
    · exact Option.noConfusion hopen

/-- The variables of the stream after a move of `send_sdp_to_peer`: as before,
or fresh. -/
theorem stepMain_vars (lib : Lib) (s : Sys) :
    (stepMain lib s).vars = s.vars ∨
      (stepMain lib s).vars
        = { startedPromise := none, responsePromise := none, requestInterrupted := false } := by
  unfold stepMain
  split
  · unfold send_sdp_to_peer_call
    split
    · exact Or.inl rfl
    · split
      · exact Or.inr rfl
      · exact Or.inr rfl
      · exact Or.inl rfl
  · split
    · unfold send_sdp_to_peer_started
      split <;> exact Or.inl rfl
    · split <;> exact Or.inl rfl
  · split
    · unfold send_sdp_to_peer_response
      repeat' split
      all_goals exact Or.inl rfl
    · split <;> exact Or.inl rfl
  · exact Or.inl rfl
  · exact Or.inl rfl

theorem on_data_response_guard (lib : Lib) (chunk : Str) (v v1 : StreamVars)
    (h : on_data lib chunk v = some v1) (hn : v.responsePromise = none) :
    (∀ t, v1.responsePromise = some t → v1.requestInterrupted = true) := by
  intro t ht
  unfold on_data at h
  split at h
  · rename_i v2 htry
    injection h with h
    subst h
    unfold on_data_try at htry
    repeat' split at htry
    all_goals first
      | exact Res.noConfusion htry
      | (injection htry with htry; subst htry; simp_all)
  · exact Option.noConfusion h
  · split at h
    · injection h with h
      subst h
      rfl
    · exact Option.noConfusion h

theorem stepStream_response_guard (lib : Lib) (m : Move) (s : Sys)
    (h : ∀ t, s.vars.responsePromise = some t → s.vars.requestInterrupted = true) :
    ∀ t, (stepStream lib m s).vars.responsePromise = some t →
      (stepStream lib m s).vars.requestInterrupted = true := by
  unfold stepStream
  split
  · split <;> exact h
  · rename_i chunk _
    split
    · exact h
    · rename_i hint
      have hn : s.vars.responsePromise = none := by
        cases hr : s.vars.responsePromise with
        | none => rfl
        | some t => exact absurd (h t hr) hint
      split
      · exact h
      · rename_i vars hod
        exact on_data_response_guard lib chunk s.vars vars hod hn
  · exact h
  · exact h
  · exact h

/-- In every move: a `response` promise with a value comes with the abort flag. -/
theorem step_response_guard (lib : Lib) (m : Move) (s : Sys)
    (h : ∀ t, s.vars.responsePromise = some t → s.vars.requestInterrupted = true) :
    ∀ t, (step lib m s).vars.responsePromise = some t →
      (step lib m s).vars.requestInterrupted = true := by
  unfold step
  split
  · exact h
  · cases m with
    | main =>
      show ∀ t, (stepMain lib s).vars.responsePromise = some t →
        (stepMain lib s).vars.requestInterrupted = true
      rcases stepMain_vars lib s with hv | hv
      · rw [hv]; exact h
      · rw [hv]; intro t ht; exact Option.noConfusion ht
    | headers ct => exact stepStream_response_guard lib (Move.headers ct) s h
    | finish => exact stepStream_response_guard lib Move.finish s h
    | data chunk => exact stepStream_response_guard lib (Move.data chunk) s h

theorem run_response_guard (lib : Lib) (schedule : List Move) :
    ∀ s : Sys, (∀ t, s.vars.responsePromise = some t → s.vars.requestInterrupted = true) →
      ∀ t, (run lib schedule s).vars.responsePromise = some t →
        (run lib schedule s).vars.requestInterrupted = true := by
  induction schedule with
  | nil => intro s h; exact h
  | cons m ms ih =>
    intro s h
    exact ih (step lib m s) (step_response_guard lib m s h)

/-! ## The bitrate rewriter -/

/-- C2, amended: when the first line starting with `m=<media>` is followed by
lines each starting with `i=` or `c=` and then by a non-empty line `L` starting
with none of `i=`, `c=`, `b`, the text written by `setMediaBitrate` has the line
`b=AS:<n>` directly behind the last of those lines and directly in front of
`L`; the lines around them are the non-empty lines of the input, in order. -/
theorem setMediaBitrate_insertion_point (text media : Str) (n : Int)
    (pre : List Str) (m : Str) (ics : List Str) (L : Str) (post : List Str)
    (hl : readLines text = pre ++ m :: (ics ++ L :: post))
    (hpre : ∀ x ∈ pre, ¬ (['m', '='] ++ media) <+: x)
    (hm : (['m', '='] ++ media) <+: m)
    (hics : ∀ x ∈ ics, ['i', '='] <+: x ∨ ['c', '='] <+: x)
    (hLi : ¬ ['i', '='] <+: L) (hLc : ¬ ['c', '='] <+: L) (hLb : ¬ ['b'] <+: L)
    (hL : L ≠ []) :
    setMediaBitrate text media n = joinLines (pre ++ m :: (ics ++ b_line n :: L :: post)) ∧
    readLines (setMediaBitrate text media n)
      = nonEmptyLines pre ++ m :: (ics ++ b_line n :: L :: nonEmptyLines post) := by
  obtain ⟨h1, h2, h3, h4⟩ := split_conditions media pre m ics (L :: post) hpre hm hics
    (by intro L2 post2 hh; cases hh; exact ⟨hLi, hLc⟩)
  have hb : (find L ['b'] == some 0) = false := by
    rw [← find_eq_zero_iff] at hLb
    simpa using hLb
  have hk : keptRest (L :: post) = L :: post := by simp [keptRest, hb]
  have hne : L.isEmpty = false := by
    cases L with
    | nil => exact absurd rfl hL
    | cons c cs => rfl
  constructor
  · rw [setMediaBitrate_split text media n pre m ics (L :: post) hl h1 h2 h3 h4, hk]
  · rw [readLines_setMediaBitrate text media n pre m ics (L :: post) hl h1 h2 h3 h4, hk,
      nonEmptyLines_cons_of_not_empty _ _ hne]

/-- C3: a text none of whose lines starts with `m=<media>` is returned unchanged,
character for character. -/
theorem setMediaBitrate_media_absent (text media : Str) (n : Int)
    (h : ∀ l ∈ readLines text, ¬ (['m', '='] ++ media) <+: l) :
    setMediaBitrate text media n = text := by
  apply setMediaBitrate_absent
  intro l hl
  have := h l hl
  rw [← isMediaLine_iff] at this
  simpa using this

/-- C4: `setMediaBitrate` is idempotent for every text, media type and bitrate. -/
theorem setMediaBitrate_idempotent (s m : Str) (n : Int) :
    setMediaBitrate (setMediaBitrate s m n) m n = setMediaBitrate s m n :=
  setMediaBitrate_twice s m n

/-- C6: for a text with a line starting with `m=<media>`, the output is the
concatenation of non-empty lines, each followed by a newline; these lines are
the non-empty lines up to the insertion point, the line `b=AS:<n>`, and the
lines `after`; taking the `b=AS:<n>` line out leaves the non-empty lines of the
input, in order, less at most the one line that stood at the insertion point. -/
theorem setMediaBitrate_frame (text media : Str) (n : Int)
    (h : ∃ l ∈ readLines text, (['m', '='] ++ media) <+: l) :
    ∃ (pre : List Str) (m : Str) (ics rest after : List Str),
      readLines text = pre ++ m :: (ics ++ rest) ∧
      (∀ x ∈ pre, ¬ (['m', '='] ++ media) <+: x) ∧ (['m', '='] ++ media) <+: m ∧
      (∀ x ∈ ics, ['i', '='] <+: x ∨ ['c', '='] <+: x) ∧
      (∀ L post, rest = L :: post → ¬ ['i', '='] <+: L ∧ ¬ ['c', '='] <+: L) ∧
      setMediaBitrate text media n
        = (nonEmptyLines (pre ++ m :: ics) ++ b_line n :: after).flatMap (fun v => v ++ ['\n']) ∧
      (∀ v ∈ nonEmptyLines (pre ++ m :: ics) ++ b_line n :: after, v ≠ [] ∧ '\n' ∉ v) ∧
      (nonEmptyLines (readLines text) = nonEmptyLines (pre ++ m :: ics) ++ after ∨
        ∃ x, nonEmptyLines (readLines text) = nonEmptyLines (pre ++ m :: ics) ++ x :: after) := by
  have h' : ∃ l ∈ readLines text, isMediaLine media l = true := by
    obtain ⟨l, hl, hp⟩ := h
    exact ⟨l, hl, (isMediaLine_iff media l).mpr hp⟩
  obtain ⟨pre, m, ics, rest, hl, hpre, hm, hics, hrest⟩ := exists_split text media h'
  have hV : nonEmptyLines (pre ++ m :: (ics ++ b_line n :: keptRest rest))
      = nonEmptyLines (pre ++ m :: ics) ++ b_line n :: nonEmptyLines (keptRest rest) := by
    have : pre ++ m :: (ics ++ b_line n :: keptRest rest)
        = (pre ++ m :: ics) ++ b_line n :: keptRest rest := by simp
    rw [this, nonEmptyLines_append, nonEmptyLines_cons_of_not_empty _ _ (b_line_not_empty n)]
  have hin : ∀ l ∈ readLines text, '\n' ∉ l := readLines_no_newline text
  refine ⟨pre, m, ics, rest, nonEmptyLines (keptRest rest), hl, ?_, (isMediaLine_iff media m).mp hm,
    ?_, ?_, ?_, ?_, ?_⟩
  · intro x hx hp
    have := hpre x hx
    rw [(isMediaLine_iff media x).mpr hp] at this
    exact Bool.noConfusion this
  · intro x hx
    have h1 := hics x hx
    by_contra hc
    push_neg at hc
    rw [(notInfoOrConn_iff x).mpr hc] at h1
    exact Bool.noConfusion h1
  · intro L post hr
    exact (notInfoOrConn_iff L).mp (hrest L post hr)
  · rw [setMediaBitrate_split text media n pre m ics rest hl hpre hm hics hrest,
      ← joinLines_nonEmptyLines, hV]
    apply joinLines_eq_flatMap
    intro v hv
    rw [← hV] at hv
    exact (mem_nonEmptyLines hv).2
  · intro v hv
    rw [← hV] at hv
    obtain ⟨hmem, hne⟩ := mem_nonEmptyLines hv
    constructor
    · intro h0
      rw [h0] at hne
      exact Bool.noConfusion hne
    · rw [hl] at hin
      simp only [List.mem_append, List.mem_cons] at hmem hin
      rcases hmem with h1 | h1 | h1 | h1 | h1
      · exact hin v (Or.inl h1)
      · exact hin v (Or.inr (Or.inl h1))
      · exact hin v (Or.inr (Or.inr (Or.inl h1)))
      · rw [h1]; exact b_line_no_newline n
      · exact hin v (Or.inr (Or.inr (Or.inr (keptRest_sub rest v h1))))
  · have hsplit : readLines text = (pre ++ m :: ics) ++ rest := by rw [hl]; simp
    rw [hsplit, nonEmptyLines_append]
    rcases keptRest_cases rest with hk | ⟨x, hk⟩
    · left; rw [hk]
    · right
      cases rest with
      | nil => cases hk
      | cons L post =>
        have hL : L = x := by injection hk
        have hp : post = keptRest (L :: post) := by injection hk
        by_cases hb : (find L ['b'] == some 0) = true
        · refine ⟨L, ?_⟩
          have hLne : L.isEmpty = false := by
            cases L with
            | nil => simp [find] at hb
            | cons c cs => rfl
          rw [nonEmptyLines_cons_of_not_empty _ _ hLne, ← hp]
        · exfalso
          have hk2 : keptRest (L :: post) = L :: post := by simp [keptRest, hb]
          rw [hk2] at hp
          have := congrArg List.length hp
          simp at this

/-- C7: at the insertion point, the first line behind the media line that starts
with neither `i=` nor `c=`: a line there that begins with `b` is overwritten by
`b=AS:<n>` and the number of non-empty lines stays the same; otherwise (another
line, or the end of the text) `b=AS:<n>` is added there as one new line. -/
theorem setMediaBitrate_replace_or_insert (text media : Str) (n : Int)
    (pre : List Str) (m : Str) (ics rest : List Str)
    (hl : readLines text = pre ++ m :: (ics ++ rest))
    (hpre : ∀ x ∈ pre, ¬ (['m', '='] ++ media) <+: x)
    (hm : (['m', '='] ++ media) <+: m)
    (hics : ∀ x ∈ ics, ['i', '='] <+: x ∨ ['c', '='] <+: x)
    (hrest : ∀ L post, rest = L :: post → ¬ ['i', '='] <+: L ∧ ¬ ['c', '='] <+: L) :
    (∀ L post, rest = L :: post → ['b'] <+: L →
      readLines (setMediaBitrate text media n)
        = nonEmptyLines (pre ++ m :: ics) ++ b_line n :: nonEmptyLines post ∧
      (nonEmptyLines (readLines (setMediaBitrate text media n))).length
        = (nonEmptyLines (readLines text)).length) ∧
    ((∀ L post, rest = L :: post → ¬ ['b'] <+: L) →
      readLines (setMediaBitrate text media n)
        = nonEmptyLines (pre ++ m :: ics) ++ b_line n :: nonEmptyLines rest ∧
      (nonEmptyLines (readLines (setMediaBitrate text media n))).length
        = (nonEmptyLines (readLines text)).length + 1) := by
  obtain ⟨h1, h2, h3, h4⟩ := split_conditions media pre m ics rest hpre hm hics hrest
  have hout := readLines_setMediaBitrate text media n pre m ics rest hl h1 h2 h3 h4
  have hpm : nonEmptyLines (pre ++ m :: ics) = nonEmptyLines pre ++ m :: ics := by
    rw [nonEmptyLines_append, nonEmptyLines_cons_of_not_empty _ _ (isMediaLine_not_empty _ _ h2),
      nonEmptyLines_eq_self ics (fun v hv => infoOrConn_not_empty v (h3 v hv))]
  have hsplit : nonEmptyLines (readLines text)
      = nonEmptyLines (pre ++ m :: ics) ++ nonEmptyLines rest := by
    rw [← nonEmptyLines_append, hl]; simp
  have hall : nonEmptyLines (readLines (setMediaBitrate text media n))
      = readLines (setMediaBitrate text media n) := by
    rw [hout]
    have : nonEmptyLines pre ++ m :: (ics ++ b_line n :: nonEmptyLines (keptRest rest))
        = nonEmptyLines (pre ++ m :: (ics ++ b_line n :: keptRest rest)) := by
      rw [nonEmptyLines_append, nonEmptyLines_cons_of_not_empty _ _ (isMediaLine_not_empty _ _ h2),
        nonEmptyLines_append, nonEmptyLines_eq_self ics (fun v hv => infoOrConn_not_empty v (h3 v hv)),
        nonEmptyLines_cons_of_not_empty _ _ (b_line_not_empty n)]
    rw [this, nonEmptyLines_idem]
  constructor
  · intro L post hr hb
    subst hr
    have hb2 : (find L ['b'] == some 0) = true := by
      simpa using (find_eq_zero_iff L ['b']).mpr hb
    have hk : keptRest (L :: post) = post := by simp [keptRest, hb2]
    have hLne : L.isEmpty = false := by
      cases L with
      | nil => simp [find] at hb2
      | cons c cs => rfl
    have e1 : readLines (setMediaBitrate text media n)
        = nonEmptyLines (pre ++ m :: ics) ++ b_line n :: nonEmptyLines post := by
      rw [hout, hk, hpm]; simp
    refine ⟨e1, ?_⟩
    rw [hall, e1, hsplit, nonEmptyLines_cons_of_not_empty _ _ hLne]
    simp
  · intro hnb
    have hk : keptRest rest = rest := by
      cases rest with
      | nil => rfl
      | cons L post =>
        have := hnb L post rfl
        rw [← find_eq_zero_iff] at this
        simp [keptRest, this]
    have e1 : readLines (setMediaBitrate text media n)
        = nonEmptyLines (pre ++ m :: ics) ++ b_line n :: nonEmptyLines rest := by
      rw [hout, hk, hpm]; simp
    refine ⟨e1, ?_⟩
    rw [hall, e1, hsplit]
    simp only [List.length_append, List.length_cons]
    omega

/-- C2 as stated fails for a blank line `L`: in `m=video`, blank, `a=x` the
blank line starts with none of `i=`, `c=`, `b`, and in the output `b=AS:500` is
followed by `a=x`, the blank line being dropped. -/
theorem setMediaBitrate_insertion_blank_line :
    readLines "m=video\n\na=x\n".toList = ["m=video".toList, [], "a=x".toList] ∧
    (['m', '='] ++ "video".toList) <+: "m=video".toList ∧
    (¬ ['i', '='] <+: ([] : Str) ∧ ¬ ['c', '='] <+: ([] : Str) ∧ ¬ ['b'] <+: ([] : Str)) ∧
    readLines (setMediaBitrate "m=video\n\na=x\n".toList "video".toList 500)
      = ["m=video".toList, "b=AS:500".toList, "a=x".toList] ∧
    ([] : Str) ∉ readLines (setMediaBitrate "m=video\n\na=x\n".toList "video".toList 500) := by
  decide

theorem setMediaBitrate_insertion_point_witness :
    setMediaBitrate "v=0\nm=video 9\ni=x\nc=IN\na=y\n\nt=1\n".toList "video".toList 500
      = joinLines (["v=0".toList] ++ "m=video 9".toList ::
          (["i=x".toList, "c=IN".toList] ++ b_line 500 :: "a=y".toList :: [[], "t=1".toList])) ∧
    readLines (setMediaBitrate "v=0\nm=video 9\ni=x\nc=IN\na=y\n\nt=1\n".toList "video".toList 500)
      = nonEmptyLines ["v=0".toList] ++ "m=video 9".toList ::
          (["i=x".toList, "c=IN".toList] ++ b_line 500 :: "a=y".toList ::
            nonEmptyLines [[], "t=1".toList]) :=
  setMediaBitrate_insertion_point "v=0\nm=video 9\ni=x\nc=IN\na=y\n\nt=1\n".toList "video".toList 500
    ["v=0".toList] "m=video 9".toList ["i=x".toList, "c=IN".toList] "a=y".toList
    [[], "t=1".toList] (by decide) (by decide) (by decide) (by decide) (by decide) (by decide)
    (by decide) (by decide)

theorem setMediaBitrate_media_absent_witness :
    setMediaBitrate "v=0\n\nm=audio 9\n\n".toList "video".toList 500
      = "v=0\n\nm=audio 9\n\n".toList :=
  setMediaBitrate_media_absent "v=0\n\nm=audio 9\n\n".toList "video".toList 500 (by decide)

theorem setMediaBitrate_frame_witness :
    ∃ (pre : List Str) (m : Str) (ics rest after : List Str),
      readLines "v=0\n\nm=video 9\nc=IN\nb=AS:30\na=y\n".toList = pre ++ m :: (ics ++ rest) ∧
      (∀ x ∈ pre, ¬ (['m', '='] ++ "video".toList) <+: x) ∧
      (['m', '='] ++ "video".toList) <+: m ∧
      (∀ x ∈ ics, ['i', '='] <+: x ∨ ['c', '='] <+: x) ∧
      (∀ L post, rest = L :: post → ¬ ['i', '='] <+: L ∧ ¬ ['c', '='] <+: L) ∧
      setMediaBitrate "v=0\n\nm=video 9\nc=IN\nb=AS:30\na=y\n".toList "video".toList 500
        = (nonEmptyLines (pre ++ m :: ics) ++ b_line 500 :: after).flatMap
            (fun v => v ++ ['\n']) ∧
      (∀ v ∈ nonEmptyLines (pre ++ m :: ics) ++ b_line 500 :: after, v ≠ [] ∧ '\n' ∉ v) ∧
      (nonEmptyLines (readLines "v=0\n\nm=video 9\nc=IN\nb=AS:30\na=y\n".toList)
          = nonEmptyLines (pre ++ m :: ics) ++ after ∨
        ∃ x, nonEmptyLines (readLines "v=0\n\nm=video 9\nc=IN\nb=AS:30\na=y\n".toList)
          = nonEmptyLines (pre ++ m :: ics) ++ x :: after) :=
  setMediaBitrate_frame "v=0\n\nm=video 9\nc=IN\nb=AS:30\na=y\n".toList "video".toList 500
    ⟨"m=video 9".toList, by decide, by decide⟩

theorem setMediaBitrate_replace_or_insert_witness :
    (∀ L post, ["b=AS:30".toList, "a=y".toList] = L :: post → ['b'] <+: L →
      readLines (setMediaBitrate "m=video 9\nc=IN\nb=AS:30\na=y\n".toList "video".toList 500)
        = nonEmptyLines ([] ++ "m=video 9".toList :: ["c=IN".toList]) ++ b_line 500 ::
            nonEmptyLines post ∧
      (nonEmptyLines (readLines
          (setMediaBitrate "m=video 9\nc=IN\nb=AS:30\na=y\n".toList "video".toList 500))).length
        = (nonEmptyLines (readLines "m=video 9\nc=IN\nb=AS:30\na=y\n".toList)).length) ∧
    ((∀ L post, ["b=AS:30".toList, "a=y".toList] = L :: post → ¬ ['b'] <+: L) →
      readLines (setMediaBitrate "m=video 9\nc=IN\nb=AS:30\na=y\n".toList "video".toList 500)
        = nonEmptyLines ([] ++ "m=video 9".toList :: ["c=IN".toList]) ++ b_line 500 ::
            nonEmptyLines ["b=AS:30".toList, "a=y".toList] ∧
      (nonEmptyLines (readLines
          (setMediaBitrate "m=video 9\nc=IN\nb=AS:30\na=y\n".toList "video".toList 500))).length
        = (nonEmptyLines (readLines "m=video 9\nc=IN\nb=AS:30\na=y\n".toList)).length + 1) :=
  setMediaBitrate_replace_or_insert "m=video 9\nc=IN\nb=AS:30\na=y\n".toList "video".toList 500
    [] "m=video 9".toList ["c=IN".toList] ["b=AS:30".toList, "a=y".toList]
    (by decide) (by decide) (by decide) (by decide)
    (by intro L post h; cases h; decide)

/-- C5 as stated fails: with `m=video`, `a=x`, `b=AS:500` the line is inserted
in front of `a=x` and the old `b=AS:500` stays, so the media section of the
text rewritten twice has two lines equal to `b=AS:500`. -/
theorem setMediaBitrate_two_b_lines :
    (['m', '='] ++ "video".toList) <+: "m=video".toList ∧
    "m=video".toList ∈ readLines "m=video\na=x\nb=AS:500\n".toList ∧
    readLines (setMediaBitrate (setMediaBitrate "m=video\na=x\nb=AS:500\n".toList
        "video".toList 500) "video".toList 500)
      = ["m=video".toList, "b=AS:500".toList, "a=x".toList, "b=AS:500".toList] ∧
    (mediaSection "video".toList (readLines (setMediaBitrate (setMediaBitrate
        "m=video\na=x\nb=AS:500\n".toList "video".toList 500) "video".toList 500))).count
      (b_line 500) = 2 := by
  decide

/-- C5, amended: for a text with a line starting with `m=<media>` in whose media
section no line other than the one at the insertion point equals `b=AS:<n>`,
the text rewritten twice has exactly one line equal to `b=AS:<n>` in that media
section. -/
theorem setMediaBitrate_one_b_line (text media : Str) (n : Int)
    (h : ∃ l ∈ readLines text, (['m', '='] ++ media) <+: l)
    (hother : b_line n ∉ (mediaSection media (readLines text)).eraseIdx
      ((mediaSection media (readLines text)).findIdx notInfoOrConn)) :
    (mediaSection media (readLines
      (setMediaBitrate (setMediaBitrate text media n) media n))).count (b_line n) = 1 := by
  have h' : ∃ l ∈ readLines text, isMediaLine media l = true := by
    obtain ⟨l, hl, hp⟩ := h
    exact ⟨l, hl, (isMediaLine_iff media l).mpr hp⟩
  obtain ⟨pre, m, ics, rest, hl, hpre, hm, hics, hrest⟩ := exists_split text media h'
  rw [setMediaBitrate_twice]
  exact count_b_line_section text media n pre m ics rest hl hpre hm hics hrest hother

theorem setMediaBitrate_one_b_line_witness :
    (mediaSection "video".toList (readLines
      (setMediaBitrate (setMediaBitrate "v=0\nm=video 9\nc=IN\nb=AS:500\na=y\nm=audio 9\nb=AS:500\n".toList
        "video".toList 500) "video".toList 500))).count (b_line 500) = 1 :=
  setMediaBitrate_one_b_line "v=0\nm=video 9\nc=IN\nb=AS:500\na=y\nm=audio 9\nb=AS:500\n".toList
    "video".toList 500 ⟨"m=video 9".toList, by decide, by decide⟩ (by decide)

/-! ## The order of open and publish -/

/-- C1: in every execution of one negotiation attempt, whatever the moves of the
two threads and their order, every publish (the `HTTP_POST` of the description)
in the trace comes after a `startedPromise.set_value(true)`; that happens only
in a call of `on_data` on a chunk carrying the event `open`; and once the
promise holds `false` no publish is in the trace, however the execution goes
on. -/
theorem publish_only_after_open (lib : Lib) (w : World) (desc : Desc) (schedule more : List Move) :
    ∃ trace, (run lib schedule (initial w desc)).world.effects = w.effects ++ trace ∧
      (∀ before url type sdp after, trace = before ++ Effect.http_post url type sdp :: after →
        Effect.started_set true ∈ before) ∧
      (Effect.started_set true ∈ trace →
        ∃ chunk, Move.data chunk ∈ schedule ∧ decodedEvent lib chunk = some "open".toList) ∧
      ((run lib schedule (initial w desc)).vars.startedPromise = some false →
        ∃ longer, (run lib (schedule ++ more) (initial w desc)).world.effects = w.effects ++ longer ∧
          ∀ url type sdp, Effect.http_post url type sdp ∉ longer) := by
  obtain ⟨trace, he, h1, h2, h3, h4, h5⟩ := run_attemptInvariant lib w desc schedule
  refine ⟨trace, he, ?_, h4, ?_⟩
  · intro before url type sdp after heq
    exact h1 before _ after heq rfl
  · intro hfalse
    have hpc : ∀ d, (run lib schedule (initial w desc)).pc ≠ MainPc.call d := by
      intro d hd
      rw [(h5 d hd).2.1] at hfalse
      exact Option.noConfusion hfalse
    have hkeep := run_started_keep lib more _ false hpc hfalse
    rw [← run_append] at hkeep
    obtain ⟨longer, he2, _, _, k3, _, _⟩ := run_attemptInvariant lib w desc (schedule ++ more)
    refine ⟨longer, he2, ?_⟩
    intro url type sdp hmem
    have := k3 ⟨_, hmem, rfl⟩
    rw [hkeep] at this
    simp at this

/-- An execution in which the publish does happen: the call in state
`PEER_CALL_NEGOTIATING`, the headers, a chunk read as the event `open`, and the
thread of `send_sdp_to_peer` again. -/
theorem publish_after_open_run :
    (run openLib
      [Move.main, Move.headers (some "text/event-stream".toList), Move.data "data: {}".toList,
        Move.main]
      (initial ⟨AppState.PEER_CALL_NEGOTIATING, true, []⟩
        ⟨SdpType.OFFER, "m=video 9\n".toList⟩)).world.effects
      = [Effect.print "Sending offer:\nm=video 9\nb=AS:500\n\n".toList,
         Effect.http_get get_answer_url,
         Effect.started_set true,
         Effect.http_post send_offer_url "offer".toList "m=video 9\nb=AS:500\n".toList] := by
  decide

theorem publish_only_after_open_witness :
    ∃ trace, (run openLib
        [Move.main, Move.headers (some "text/event-stream".toList), Move.data "data: {}".toList,
          Move.main]
        (initial ⟨AppState.PEER_CALL_NEGOTIATING, true, []⟩
          ⟨SdpType.OFFER, "m=video 9\n".toList⟩)).world.effects
        = (World.mk AppState.PEER_CALL_NEGOTIATING true []).effects ++ trace ∧
      (∀ before url type sdp after, trace = before ++ Effect.http_post url type sdp :: after →
        Effect.started_set true ∈ before) ∧
      (Effect.started_set true ∈ trace →
        ∃ chunk, Move.data chunk ∈
            [Move.main, Move.headers (some "text/event-stream".toList),
              Move.data "data: {}".toList, Move.main] ∧
          decodedEvent openLib chunk = some "open".toList) ∧
      ((run openLib
        [Move.main, Move.headers (some "text/event-stream".toList), Move.data "data: {}".toList,
          Move.main]
        (initial ⟨AppState.PEER_CALL_NEGOTIATING, true, []⟩
          ⟨SdpType.OFFER, "m=video 9\n".toList⟩)).vars.startedPromise = some false →
        ∃ longer, (run openLib
          ([Move.main, Move.headers (some "text/event-stream".toList),
            Move.data "data: {}".toList, Move.main] ++ [Move.finish])
          (initial ⟨AppState.PEER_CALL_NEGOTIATING, true, []⟩
            ⟨SdpType.OFFER, "m=video 9\n".toList⟩)).world.effects
            = (World.mk AppState.PEER_CALL_NEGOTIATING true []).effects ++ longer ∧
          ∀ url type sdp, Effect.http_post url type sdp ∉ longer) :=
  publish_only_after_open openLib ⟨AppState.PEER_CALL_NEGOTIATING, true, []⟩
    ⟨SdpType.OFFER, "m=video 9\n".toList⟩
    [Move.main, Move.headers (some "text/event-stream".toList), Move.data "data: {}".toList,
      Move.main] [Move.finish]

/-! ## The state guard and the stream verifier -/

/-- C8 as stated fails: a call in state `PEER_CONNECTED` is rejected and leaves
`app_state` at `APP_STATE_ERROR`, not at `PEER_CONNECTED`. -/
theorem send_sdp_to_peer_guard_changes_state :
    AppState.PEER_CONNECTED.toInt < AppState.PEER_CALL_NEGOTIATING.toInt ∧
    (run noLib [Move.main]
      (initial ⟨AppState.PEER_CONNECTED, true, []⟩ ⟨SdpType.OFFER, "v=0\n".toList⟩)).pc
      = MainPc.returned ∧
    (run noLib [Move.main]
      (initial ⟨AppState.PEER_CONNECTED, true, []⟩ ⟨SdpType.OFFER, "v=0\n".toList⟩)).world.app_state
      = AppState.APP_STATE_ERROR ∧
    AppState.APP_STATE_ERROR ≠ AppState.PEER_CONNECTED := by
  decide

/-- C8, amended: in every call state below `PEER_CALL_NEGOTIATING` the call of
`send_sdp_to_peer` is rejected (it returns at once, after the error message and
the end of the loop) and `app_state` is `APP_STATE_ERROR` after it; it has its
value from before the call only if that was `APP_STATE_ERROR`. -/
theorem send_sdp_to_peer_guard_sets_error (lib : Lib) (w : World) (desc : Desc)
    (h : w.app_state.toInt < AppState.PEER_CALL_NEGOTIATING.toInt) :
    (run lib [Move.main] (initial w desc)).pc = MainPc.returned ∧
    (run lib [Move.main] (initial w desc)).world.app_state = AppState.APP_STATE_ERROR ∧
    (run lib [Move.main] (initial w desc)).world.effects
      = w.effects ++ (Effect.printerr "Can't send SDP to peer, not in call".toList ::
          if w.loop then [Effect.loop_quit] else []) ∧
    (run lib [Move.main] (initial w desc)).world.loop = false ∧
    ((run lib [Move.main] (initial w desc)).world.app_state = w.app_state
      ↔ w.app_state = AppState.APP_STATE_ERROR) := by
  have e : run lib [Move.main] (initial w desc) = send_sdp_to_peer_call desc (initial w desc) := by
    simp [run, step, stepMain, initial]
  rw [e, send_sdp_to_peer_call_rejected desc _ h]
  have hs : (cleanup_and_quit_loop (some "Can't send SDP to peer, not in call".toList)
      AppState.APP_STATE_ERROR w).app_state = AppState.APP_STATE_ERROR :=
    cleanup_and_quit_loop_app_state _ _ _ (by decide)
  refine ⟨rfl, hs, cleanup_and_quit_loop_effects _ _ _, ?_, ?_⟩
  · exact cleanup_and_quit_loop_loop _ _ _
  · show (cleanup_and_quit_loop _ _ w).app_state = w.app_state ↔ _
    rw [hs]
    exact eq_comm

theorem send_sdp_to_peer_guard_sets_error_witness :
    (run noLib [Move.main]
      (initial ⟨AppState.PEER_CONNECTED, true, []⟩ ⟨SdpType.OFFER, "v=0\n".toList⟩)).world.app_state
      = AppState.APP_STATE_ERROR :=
  (send_sdp_to_peer_guard_sets_error noLib ⟨AppState.PEER_CONNECTED, true, []⟩
    ⟨SdpType.OFFER, "v=0\n".toList⟩ (by decide)).2.1

/-- C9 as stated fails: a call in state `PEER_CALL_STARTED` passes the guard and
opens the event stream, and once the stream has reported `open` it publishes. -/
theorem send_sdp_to_peer_not_rejected_when_started :
    AppState.PEER_CALL_STARTED ≠ AppState.PEER_CALL_NEGOTIATING ∧
    (run openLib [Move.main]
      (initial ⟨AppState.PEER_CALL_STARTED, true, []⟩ ⟨SdpType.OFFER, "v=0\n".toList⟩)).pc
      = MainPc.awaitStarted "offer".toList "v=0\n".toList ∧
    Effect.http_get get_answer_url ∈ (run openLib [Move.main]
      (initial ⟨AppState.PEER_CALL_STARTED, true, []⟩ ⟨SdpType.OFFER, "v=0\n".toList⟩)).world.effects ∧
    Effect.http_post send_offer_url "offer".toList "v=0\n".toList ∈ (run openLib
      [Move.main, Move.headers (some "text/event-stream".toList), Move.data "data: {}".toList,
        Move.main]
      (initial ⟨AppState.PEER_CALL_STARTED, true, []⟩ ⟨SdpType.OFFER, "v=0\n".toList⟩)).world.effects := by
  decide

/-- C9, amended: in every call state below `PEER_CALL_NEGOTIATING` the call of
`send_sdp_to_peer` is rejected at the call site, and no execution of it issues
a network call: what it adds to the effects holds neither the opening of the
event stream nor a publish. -/
theorem send_sdp_to_peer_rejected_below_negotiating (lib : Lib) (w : World) (desc : Desc)
    (schedule : List Move)
    (h : w.app_state.toInt < AppState.PEER_CALL_NEGOTIATING.toInt) :
    (run lib (Move.main :: schedule) (initial w desc)).pc = MainPc.returned ∧
    ∃ trace, (run lib schedule (initial w desc)).world.effects = w.effects ++ trace ∧
      ∀ e ∈ trace, e.isNetworkCall = false := by
  have hrej := send_sdp_to_peer_call_rejected desc (initial w desc) h
  constructor
  · have e : step lib Move.main (initial w desc) = send_sdp_to_peer_call desc (initial w desc) := by
      simp [step, stepMain, initial]
    show (run lib schedule (step lib Move.main (initial w desc))).pc = _
    rw [e]
    rcases run_rejected lib w desc h schedule _ (Or.inr rfl) with h1 | h1
    · exfalso
      have := run_rejected lib w desc h schedule _ (Or.inr rfl)
      have hfix : ∀ (ms : List Move) (s : Sys), s.pc = MainPc.returned → s.phase = StreamPhase.idle →
          run lib ms s = s := by
        intro ms
        induction ms with
        | nil => intro s _ _; rfl
        | cons m ms ih =>
          intro s h1 h2
          show run lib ms (step lib m s) = s
          rw [step_rejected lib m s h1 h2]
          exact ih s h1 h2
      rw [hfix schedule _ (by rw [hrej]) (by rw [hrej]; rfl)] at h1
      rw [hrej] at h1
      have := congrArg Sys.pc h1
      simp [initial] at this
    · rw [h1, hrej]
  · rcases run_rejected lib w desc h schedule _ (Or.inl rfl) with h1 | h1
    · exact ⟨[], by rw [h1]; simp [initial], by simp⟩
    · refine ⟨Effect.printerr "Can't send SDP to peer, not in call".toList ::
        (if w.loop then [Effect.loop_quit] else []), ?_, ?_⟩
      · rw [h1, hrej]
        exact cleanup_and_quit_loop_effects _ _ _
      · intro e he
        rcases List.mem_cons.mp he with rfl | he
        · rfl
        · cases hl : w.loop <;> simp [hl] at he
          subst he; rfl

theorem send_sdp_to_peer_rejected_below_negotiating_witness :
    (run noLib (Move.main :: [Move.headers none, Move.data "data: {}".toList, Move.main])
      (initial ⟨AppState.PEER_CONNECTED, true, []⟩ ⟨SdpType.OFFER, "v=0\n".toList⟩)).pc
      = MainPc.returned ∧
    ∃ trace, (run noLib [Move.headers none, Move.data "data: {}".toList, Move.main]
      (initial ⟨AppState.PEER_CONNECTED, true, []⟩ ⟨SdpType.OFFER, "v=0\n".toList⟩)).world.effects
        = (World.mk AppState.PEER_CONNECTED true []).effects ++ trace ∧
      ∀ e ∈ trace, e.isNetworkCall = false :=
  send_sdp_to_peer_rejected_below_negotiating noLib ⟨AppState.PEER_CONNECTED, true, []⟩
    ⟨SdpType.OFFER, "v=0\n".toList⟩ [Move.headers none, Move.data "data: {}".toList, Move.main]
    (by decide)

/-- C10: `verify_sse_response` returns no error exactly when the content type,
the empty string if there is none, begins with `text/event-stream`; otherwise
it returns its error message, and the transfer that called it ends the stream
there. -/
theorem verify_sse_response_accepts_iff (content_type : Option Str) :
    (verify_sse_response content_type = none
      ↔ "text/event-stream".toList <+: content_type.getD []) ∧
    (¬ "text/event-stream".toList <+: content_type.getD [] →
      verify_sse_response content_type
        = some "Invalid content_type, should be 'text/event-stream'.".toList ∧
      ∀ (lib : Lib) (s : Sys), s.pc ≠ MainPc.aborted → s.phase = StreamPhase.connecting →
        step lib (Move.headers content_type) s = { s with phase := StreamPhase.ended }) := by
  have key := verify_sse_response_eq_none_iff content_type
  refine ⟨key, ?_⟩
  intro hno
  have hne : verify_sse_response content_type ≠ none := fun h0 => hno (key.mp h0)
  have hmsg : verify_sse_response content_type
      = some "Invalid content_type, should be 'text/event-stream'.".toList := by
    have hcases : verify_sse_response content_type = none ∨ verify_sse_response content_type
        = some "Invalid content_type, should be 'text/event-stream'.".toList := by
      unfold verify_sse_response
      cases content_type <;> (dsimp only; split) <;> simp
    exact hcases.resolve_left hne
  refine ⟨hmsg, ?_⟩
  intro lib s hpc hph
  unfold step
  rw [if_neg hpc]
  simp only [stepStream, hph, hmsg]

theorem verify_sse_response_accepts_iff_witness :
    verify_sse_response (some "text/html".toList)
      = some "Invalid content_type, should be 'text/event-stream'.".toList ∧
    ∀ (lib : Lib) (s : Sys), s.pc ≠ MainPc.aborted → s.phase = StreamPhase.connecting →
      step lib (Move.headers (some "text/html".toList)) s = { s with phase := StreamPhase.ended } :=
  (verify_sse_response_accepts_iff (some "text/html".toList)).2 (by decide)

/-! ## The answer -/

theorem messageReceived_check :
    (messageReceived "answer".toList).pc = MainPc.awaitResponse ∧
    (messageReceived "answer".toList).vars.responsePromise = some "answer".toList ∧
    (messageReceived "answer".toList).vars.requestInterrupted = true ∧
    (messageReceived "answer".toList).world.app_state = AppState.PEER_CALL_NEGOTIATING ∧
    (messageReceived "answer".toList).world.effects
      = [Effect.print "Sending offer:\nv=0\n\n".toList,
         Effect.http_get get_answer_url,
         Effect.started_set true,
         Effect.http_post send_offer_url "offer".toList "v=0\n".toList,
         Effect.response_set "answer".toList] := by
  decide

/-- C11: when the payload of the message parses as a JSON object without a
member `type`, `send_sdp_to_peer` prints its error, sets `app_state` to
`PEER_CALL_ERROR`, quits the loop if there is one (`loop` is null afterwards)
and returns; and however the execution goes on, `app_state` stays
`PEER_CALL_ERROR` and no `set-remote-description` is emitted. -/
theorem send_sdp_to_peer_missing_type (lib : Lib) (s : Sys) (text : Str)
    (child : List (Str × JsonValue)) (more : List Move)
    (hpc : s.pc = MainPc.awaitResponse) (hresp : s.vars.responsePromise = some text)
    (hparse : lib.json_parser_load_from_data text = some (JsonNode.object child))
    (htype : json_object_has_member child "type".toList = false) :
    (step lib Move.main s).pc = MainPc.returned ∧
    (step lib Move.main s).world.app_state = AppState.PEER_CALL_ERROR ∧
    (step lib Move.main s).world.loop = false ∧
    (step lib Move.main s).world.effects
      = s.world.effects ++ (Effect.printerr "ERROR: received SDP without 'type'".toList ::
          if s.world.loop then [Effect.loop_quit] else []) ∧
    (run lib (Move.main :: more) s).world.app_state = AppState.PEER_CALL_ERROR ∧
    ∃ new, (run lib (Move.main :: more) s).world.effects = s.world.effects ++ new ∧
      ∀ sdp, Effect.set_remote_description sdp ∉ new := by
  have hstep : step lib Move.main s =
      { s with
        world := cleanup_and_quit_loop (some "ERROR: received SDP without 'type'".toList)
          AppState.PEER_CALL_ERROR s.world
        pc := MainPc.returned } := by
    rw [step_main_response lib s text hpc hresp]
    unfold send_sdp_to_peer_response
    simp only [hparse, htype, Bool.not_false, if_true]
  have hstate : (step lib Move.main s).world.app_state = AppState.PEER_CALL_ERROR := by
    rw [hstep]
    exact cleanup_and_quit_loop_app_state _ _ _ (by decide)
  have heff : (step lib Move.main s).world.effects
      = s.world.effects ++ (Effect.printerr "ERROR: received SDP without 'type'".toList ::
          if s.world.loop then [Effect.loop_quit] else []) := by
    rw [hstep]
    exact cleanup_and_quit_loop_effects _ _ _
  have hret : (step lib Move.main s).pc = MainPc.returned := by rw [hstep]
  obtain ⟨k1, _, new, k3, k4⟩ := run_finished lib more (step lib Move.main s) (Or.inl hret)
  refine ⟨hret, hstate, ?_, heff, ?_, ?_⟩
  · rw [hstep]
    exact cleanup_and_quit_loop_loop _ _ _
  · show (run lib more (step lib Move.main s)).world.app_state = _
    rw [k1, hstate]
  · refine ⟨(Effect.printerr "ERROR: received SDP without 'type'".toList ::
        if s.world.loop then [Effect.loop_quit] else []) ++ new, ?_, ?_⟩
    · show (run lib more (step lib Move.main s)).world.effects = _
      rw [k3, heff, List.append_assoc]
    · intro sdp hmem
      rcases List.mem_append.mp hmem with h | h
      · rcases List.mem_cons.mp h with h | h
        · exact Effect.noConfusion h
        · cases hl : s.world.loop <;> simp [hl] at h
      · have := k4 _ h
        exact Bool.noConfusion this

theorem send_sdp_to_peer_missing_type_witness :
    (step toyLib Move.main (messageReceived "notype".toList)).pc = MainPc.returned ∧
    (step toyLib Move.main (messageReceived "notype".toList)).world.app_state
      = AppState.PEER_CALL_ERROR ∧
    (step toyLib Move.main (messageReceived "notype".toList)).world.loop = false ∧
    (step toyLib Move.main (messageReceived "notype".toList)).world.effects
      = (messageReceived "notype".toList).world.effects ++
          (Effect.printerr "ERROR: received SDP without 'type'".toList ::
            if (messageReceived "notype".toList).world.loop then [Effect.loop_quit] else []) ∧
    (run toyLib (Move.main :: [Move.finish, Move.main])
      (messageReceived "notype".toList)).world.app_state = AppState.PEER_CALL_ERROR ∧
    ∃ new, (run toyLib (Move.main :: [Move.finish, Move.main])
        (messageReceived "notype".toList)).world.effects
          = (messageReceived "notype".toList).world.effects ++ new ∧
      ∀ sdp, Effect.set_remote_description sdp ∉ new :=
  send_sdp_to_peer_missing_type toyLib (messageReceived "notype".toList) "notype".toList
    [("sdp".toList, JsonValue.string "v=0\n".toList)] [Move.finish, Move.main]
    (by decide) (by decide) (by decide) (by decide)

/-- The payloads other than an object without `type`, executed: an object with
`type` and `sdp` (`offer`) and a text that is no JSON (`???`) leave the loop
running and `app_state` at `PEER_CALL_NEGOTIATING`; the object without `type`
(`notype`) ends the loop in `PEER_CALL_ERROR`. -/
theorem payload_runs :
    (step toyLib Move.main (messageReceived "offer".toList)).world.loop = true ∧
    (step toyLib Move.main (messageReceived "offer".toList)).world.app_state
      = AppState.PEER_CALL_NEGOTIATING ∧
    (step toyLib Move.main (messageReceived "???".toList)).world.loop = true ∧
    (step toyLib Move.main (messageReceived "???".toList)).world.app_state
      = AppState.PEER_CALL_NEGOTIATING ∧
    (step toyLib Move.main (messageReceived "notype".toList)).world.loop = false ∧
    (step toyLib Move.main (messageReceived "notype".toList)).world.app_state
      = AppState.PEER_CALL_ERROR ∧
    Effect.loop_quit ∈ (step toyLib Move.main (messageReceived "notype".toList)).world.effects := by
  decide

/-- C13: when the payload of the message is a JSON object with a member `type`
and a string member `sdp` that parses as a session description: if `type` is
the string `answer`, `send_sdp_to_peer` emits `set-remote-description` with an
answer built from `sdp`, sets `app_state` to `PEER_CALL_STARTED` and returns;
for every other `type` it emits nothing and leaves `app_state`, `loop` and the
effects as they were (it returns if `type` is a string). -/
theorem send_sdp_to_peer_answer (lib : Lib) (s : Sys) (text sdp : Str)
    (child : List (Str × JsonValue))
    (hpc : s.pc = MainPc.awaitResponse) (hresp : s.vars.responsePromise = some text)
    (hparse : lib.json_parser_load_from_data text = some (JsonNode.object child))
    (htype : json_object_has_member child "type".toList = true)
    (hsdp : json_object_get_string_member child "sdp".toList = some sdp)
    (hok : lib.gst_sdp_message_parse_buffer sdp = true) :
    (json_object_get_string_member child "type".toList = some "answer".toList →
      (step lib Move.main s).pc = MainPc.returned ∧
      (step lib Move.main s).world.effects
        = s.world.effects ++ [Effect.print ("Received answer:\n".toList ++ sdp ++ ['\n']),
            Effect.set_remote_description sdp] ∧
      (step lib Move.main s).world.app_state = AppState.PEER_CALL_STARTED) ∧
    (json_object_get_string_member child "type".toList ≠ some "answer".toList →
      (step lib Move.main s).world = s.world ∧
      ((∃ t, json_object_get_string_member child "type".toList = some t) →
        (step lib Move.main s).pc = MainPc.returned)) := by
  rw [step_main_response lib s text hpc hresp]
  unfold send_sdp_to_peer_response
  simp only [hparse, htype, hsdp, hok, Bool.not_true, if_false]
  constructor
  · intro ht
    simp only [ht, if_true]
    exact ⟨rfl, rfl, rfl⟩
  · intro ht
    cases hv : json_object_get_string_member child "type".toList with
    | none => exact ⟨rfl, fun ⟨t, h⟩ => Option.noConfusion h⟩
    | some t =>
      have hne : t ≠ "answer".toList := fun h => ht (by rw [hv, h])
      simp only [hne, if_false]
      exact ⟨rfl, fun _ => rfl⟩

theorem send_sdp_to_peer_answer_witness :
    (json_object_get_string_member [("type".toList, JsonValue.string "answer".toList),
        ("sdp".toList, JsonValue.string "v=0\n".toList)] "type".toList = some "answer".toList →
      (step toyLib Move.main (messageReceived "answer".toList)).pc = MainPc.returned ∧
      (step toyLib Move.main (messageReceived "answer".toList)).world.effects
        = (messageReceived "answer".toList).world.effects ++
            [Effect.print ("Received answer:\n".toList ++ "v=0\n".toList ++ ['\n']),
              Effect.set_remote_description "v=0\n".toList] ∧
      (step toyLib Move.main (messageReceived "answer".toList)).world.app_state
        = AppState.PEER_CALL_STARTED) ∧
    (json_object_get_string_member [("type".toList, JsonValue.string "answer".toList),
        ("sdp".toList, JsonValue.string "v=0\n".toList)] "type".toList ≠ some "answer".toList →
      (step toyLib Move.main (messageReceived "answer".toList)).world
        = (messageReceived "answer".toList).world ∧
      ((∃ t, json_object_get_string_member [("type".toList, JsonValue.string "answer".toList),
          ("sdp".toList, JsonValue.string "v=0\n".toList)] "type".toList = some t) →
        (step toyLib Move.main (messageReceived "answer".toList)).pc = MainPc.returned)) :=
  send_sdp_to_peer_answer toyLib (messageReceived "answer".toList) "answer".toList "v=0\n".toList
    [("type".toList, JsonValue.string "answer".toList),
      ("sdp".toList, JsonValue.string "v=0\n".toList)]
    (by decide) (by decide) (by decide) (by decide) (by decide) (by decide)

/-- The two branches of the answer handling on concrete executions: the payload
`answer` starts the call, the payload `offer` leaves everything as it was. -/
theorem answer_and_offer_runs :
    (step toyLib Move.main (messageReceived "answer".toList)).world.app_state
      = AppState.PEER_CALL_STARTED ∧
    Effect.set_remote_description "v=0\n".toList ∈
      (step toyLib Move.main (messageReceived "answer".toList)).world.effects ∧
    (step toyLib Move.main (messageReceived "offer".toList)).world
      = (messageReceived "offer".toList).world ∧
    (step toyLib Move.main (messageReceived "offer".toList)).world.app_state
      = AppState.PEER_CALL_NEGOTIATING ∧
    (step toyLib Move.main (messageReceived "offer".toList)).pc = MainPc.returned := by
  decide

/-! ## The promises of the stream -/

/-- C14, where the code breaks it: on a chunk that carries the event `open`
while the `started` promise has its value already (the abort flag being unset),
`on_data` calls `set_value` on that promise a second time; the exception this
throws is caught, the handler calls `set_value(false)` on the same promise, and
the exception of that call leaves the callback: the process goes down. -/
theorem second_open_written_again (lib : Lib) (s : Sys) (chunk : Str) (b : Bool)
    (hpc : s.pc ≠ MainPc.aborted) (hph : s.phase = StreamPhase.receiving)
    (hint : s.vars.requestInterrupted = false)
    (hset : s.vars.startedPromise = some b)
    (hopen : decodedEvent lib chunk = some "open".toList) :
    on_data_try lib chunk s.vars = Res.throw ∧
    on_data lib chunk s.vars = none ∧
    (step lib (Move.data chunk) s).pc = MainPc.aborted := by
  have htry := on_data_try_second_open lib chunk s.vars b hopen hset
  have hod : on_data lib chunk s.vars = none := by
    unfold on_data
    rw [htry]
    simp only [hset]
  refine ⟨htry, hod, ?_⟩
  unfold step
  rw [if_neg hpc]
  simp only [stepStream, hph, hint, hod]
  rfl

theorem second_open_written_again_witness :
    on_data_try toyLib "data:open".toList
        (run toyLib [Move.main, Move.headers (some "text/event-stream".toList),
          Move.data "data:open".toList]
          (initial ⟨AppState.PEER_CALL_NEGOTIATING, true, []⟩
            ⟨SdpType.OFFER, "v=0\n".toList⟩)).vars = Res.throw ∧
    on_data toyLib "data:open".toList
        (run toyLib [Move.main, Move.headers (some "text/event-stream".toList),
          Move.data "data:open".toList]
          (initial ⟨AppState.PEER_CALL_NEGOTIATING, true, []⟩
            ⟨SdpType.OFFER, "v=0\n".toList⟩)).vars = none ∧
    (step toyLib (Move.data "data:open".toList)
        (run toyLib [Move.main, Move.headers (some "text/event-stream".toList),
          Move.data "data:open".toList]
          (initial ⟨AppState.PEER_CALL_NEGOTIATING, true, []⟩
            ⟨SdpType.OFFER, "v=0\n".toList⟩))).pc = MainPc.aborted :=
  second_open_written_again toyLib
    (run toyLib [Move.main, Move.headers (some "text/event-stream".toList),
      Move.data "data:open".toList]
      (initial ⟨AppState.PEER_CALL_NEGOTIATING, true, []⟩ ⟨SdpType.OFFER, "v=0\n".toList⟩))
    "data:open".toList true (by decide) (by decide) (by decide) (by decide) (by decide)

/-- A stream with two `open` records, executed: the first gives the promise its
value, the second takes the process down before anything is published. -/
theorem two_open_records_run :
    (run toyLib [Move.main, Move.headers (some "text/event-stream".toList),
        Move.data "data:open".toList]
      (initial ⟨AppState.PEER_CALL_NEGOTIATING, true, []⟩
        ⟨SdpType.OFFER, "v=0\n".toList⟩)).vars
      = { startedPromise := some true, responsePromise := none, requestInterrupted := false } ∧
    (run toyLib [Move.main, Move.headers (some "text/event-stream".toList),
        Move.data "data:open".toList, Move.data "data:open".toList]
      (initial ⟨AppState.PEER_CALL_NEGOTIATING, true, []⟩
        ⟨SdpType.OFFER, "v=0\n".toList⟩)).pc = MainPc.aborted ∧
    (run toyLib [Move.main, Move.headers (some "text/event-stream".toList),
        Move.data "data:open".toList, Move.data "data:open".toList, Move.main]
      (initial ⟨AppState.PEER_CALL_NEGOTIATING, true, []⟩
        ⟨SdpType.OFFER, "v=0\n".toList⟩)).world.effects
      = [Effect.print "Sending offer:\nv=0\n\n".toList, Effect.http_get get_answer_url,
         Effect.started_set true] := by
  decide

/-- The `response` promise is guarded: in every execution, once it has its
value the abort flag is set, and a chunk of the body changes nothing any more;
`on_data` is not called again. -/
theorem response_promise_guarded (lib : Lib) (w : World) (desc : Desc) (schedule : List Move)
    (chunk text : Str)
    (h : (run lib schedule (initial w desc)).vars.responsePromise = some text) :
    (run lib schedule (initial w desc)).vars.requestInterrupted = true ∧
    step lib (Move.data chunk) (run lib schedule (initial w desc))
      = run lib schedule (initial w desc) := by
  have hint := run_response_guard lib schedule (initial w desc)
    (by intro t ht; exact Option.noConfusion ht) text h
  refine ⟨hint, ?_⟩
  unfold step
  split
  · rfl
  · show stepStream lib (Move.data chunk) _ = _
    unfold stepStream
    split
    · rename_i hm _; exact Move.noConfusion hm
    · rw [if_pos hint]
    · rename_i hm _; exact Move.noConfusion hm
    · rename_i hm _; exact Move.noConfusion hm
    · rfl

end MediaReceiver
